import Mathlib

/-!
Shallow embedding of the pre-commit hooks repository
(custom_hooks/copyright_checker.py, check_version_bumped.py,
only_module_imports.py) and proofs about the embedded operations.

File contents are modelled as `List Char`.  Filesystem reads/writes and
git queries are modelled as explicit parameters / explicit outputs:
a per-file check returns its exit code, the content it would write back
(`none` when it does not write), and the list of messages it prints.
-/

namespace Hooks

/-- Characters that `str.splitlines` treats as line breaks (besides the
pair `"\r\n"`, which counts as a single break). -/
def isBreakChar (c : Char) : Bool :=
  c = '\n' || c = '\r' || c = '\x0b' || c = '\x0c' ||
  c = '\x1c' || c = '\x1d' || c = '\x1e' || c = '\x85' ||
  c = '\u2028' || c = '\u2029'

/-- Decidable literal-prefix test on character lists. -/
def isPre : List Char → List Char → Bool
  | [], _ => true
  | _ :: _, [] => false
  | a :: as, b :: bs => a = b && isPre as bs

/-- Strip a literal prefix, returning the remainder on success. -/
def stripP : List Char → List Char → Option (List Char)
  | [], s => some s
  | _ :: _, [] => none
  | a :: as, b :: bs => if a = b then stripP as bs else none

/-- Index of the first `'\n'`, mirroring `str.find`. -/
def findNL : List Char → Option Nat
  | [] => none
  | c :: t => if c = '\n' then some 0 else (findNL t).map (· + 1)

/-- `str.splitlines`: split on line-break characters, `"\r\n"` counting
as one break, with no trailing empty line for a trailing break. -/
def splitLinesF : Nat → List Char → List (List Char)
  | 0, _ => []
  | _ + 1, [] => []
  | fuel + 1, c :: t =>
    if c = '\r' then
      [] :: splitLinesF fuel (if t.head? = some '\n' then t.tail else t)
    else if isBreakChar c then [] :: splitLinesF fuel t
    else
      match splitLinesF fuel t with
      | [] => [[c]]
      | l :: ls => (c :: l) :: ls

def splitLines (s : List Char) : List (List Char) := splitLinesF s.length s

/-- Join lines with `'\n'`, mirroring `"\n".join`. -/
def joinNL : List (List Char) → List Char
  | [] => []
  | [l] => l
  | l :: ls => l ++ '\n' :: joinNL ls

/-- Does the line start with an ASCII letter?  This is the loose
"first line of code" test of `content_head`. -/
def startsAlpha : List Char → Bool
  | [] => false
  | c :: _ => c.isAlpha

/-- Lines up to and including the first line starting with a letter. -/
def headLines : List (List Char) → List (List Char)
  | [] => []
  | l :: ls => if startsAlpha l then [l] else l :: headLines ls

/-- `content_head`: the head of the content where the copyright should
be, i.e. the lines up to the first line of "code", joined by `'\n'`. -/
def content_head (content : List Char) : List Char :=
  joinNL (headLines (splitLines content))

/-- Character class `[-_.a-zA-Z0-9]` of the PEP-263 encoding regex. -/
def isCodingChar (c : Char) : Bool :=
  c = '-' || c = '_' || c = '.' || c.isAlpha || c.isDigit

/-- Does `s` start with `coding[:=][ \t]*[-_.a-zA-Z0-9]`? -/
def codingTail (s : List Char) : Bool :=
  match stripP "coding".data s with
  | none => false
  | some r =>
    match r with
    | [] => false
    | c :: r1 =>
      (c = ':' || c = '=') &&
        (match r1.dropWhile (fun d => d = ' ' || d = '\t') with
         | [] => false
         | d :: _ => isCodingChar d)

/-- Scan for `codingTail` at successive positions, never crossing a
newline (the `.` of the regex does not match `'\n'`). -/
def scanCoding : List Char → Bool
  | [] => false
  | c :: rest => codingTail (c :: rest) || (c ≠ '\n' && scanCoding rest)

/-- The PEP-263 encoding-declaration regex
`^[ \t\f]*#.*?coding[:=][ \t]*([-_.a-zA-Z0-9]+)`, as a match test
anchored at the start of the line. -/
def encodingMatch (l : List Char) : Bool :=
  match l.dropWhile (fun c => c = ' ' || c = '\t' || c = '\x0c') with
  | '#' :: t => scanCoding t
  | _ => false

/-- Second stage of `get_index_after_special_lines`: keep `sli` when the
second line is an encoding declaration, else `fli`. -/
def get_index_snd (content : List Char) (fli sli : Nat) : Nat :=
  if encodingMatch ((content.drop fli).take (sli - fli)) then sli else fli

/-- First stage: test the first line for a shebang or encoding line. -/
def get_index_aux (content : List Char) (fli : Nat) : Nat :=
  if isPre "#!".data (content.take fli) || encodingMatch (content.take fli) then
    get_index_snd content fli
      (match findNL (content.drop fli) with
       | some j => fli + j + 1
       | none => fli)
  else 0

/-- `get_index_after_special_lines`: index after a shebang and/or
encoding-declaration line found in the first two lines. -/
def get_index_after_special_lines (content : List Char) : Nat :=
  get_index_aux content
    (match findNL content with
     | some i => i + 1
     | none => 0)

/-- `str.replace` with explicit fuel (the fuel is always at least the
length of the string, so it never runs out).  Replaces every
non-overlapping occurrence, scanning left to right.  An empty pattern
is never used by the embedded code; we make it the identity. -/
def replaceAllF : Nat → List Char → List Char → List Char → List Char
  | _, s, [], _ => s
  | 0, s, _ :: _, _ => s
  | fuel + 1, s, p0 :: pr, r =>
    match s with
    | [] => []
    | c :: rest =>
      if isPre (p0 :: pr) (c :: rest) then
        r ++ replaceAllF fuel ((c :: rest).drop (p0 :: pr).length) (p0 :: pr) r
      else c :: replaceAllF fuel rest (p0 :: pr) r

/-- `str.replace`: replace all occurrences of `pat` by `rep`. -/
def replaceAll (s pat rep : List Char) : List Char :=
  replaceAllF s.length s pat rep

/-- Decimal rendering of a natural number (`str(n)` in the source),
with fuel (never exhausted since the fuel starts at `n`). -/
def decimalAux : Nat → Nat → List Char
  | 0, n => [Nat.digitChar (n % 10)]
  | fuel + 1, n =>
    if n < 10 then [Nat.digitChar n]
    else decimalAux fuel (n / 10) ++ [Nat.digitChar (n % 10)]

/-- `str(n)`: decimal rendering of a natural number. -/
def decimal (n : Nat) : List Char := decimalAux n n

/-- Numeric value of a digit character. -/
def digitVal (c : Char) : Nat := c.toNat - 48

/-- Parse exactly four digit characters (`[0-9]{4}` plus `int(...)`),
returning the value and the rest. -/
def parse4 : List Char → Option (Nat × List Char)
  | a :: b :: c :: d :: r =>
    if a.isDigit && b.isDigit && c.isDigit && d.isDigit then
      some (1000 * digitVal a + 100 * digitVal b + 10 * digitVal c + digitVal d, r)
    else none
  | _ => none

/-- `\\?` followed by a literal: an optional backslash then `pat`
(the literal `pat` never starts with a backslash here, so the greedy
optional with backtracking is this deterministic test). -/
def stripOptBack (pat s : List Char) : Option (Bool × List Char) :=
  match s with
  | '\\' :: t =>
    (match stripP pat t with
     | some r => some (true, r)
     | none => none)
  | _ =>
    match stripP pat s with
    | some r => some (false, r)
    | none => none

/-- The zero-width alternative of the optional year group: match
` by OWNER` directly. -/
def copNoSecond (owner s4 : List Char) : Option (Option Nat × List Char) :=
  match stripP (" by ".data ++ owner) s4 with
  | some r => some (none, r)
  | none => none

/-- The tail of the copyright pattern after the first year:
`(, [0-9]{4})? by OWNER`, greedy with backtracking exactly as in the
regex engine: try the group (`, ` and four digits) followed by
` by OWNER`; on failure fall back to ` by OWNER` alone. -/
def copTail (owner s4 : List Char) : Option (Option Nat × List Char) :=
  match s4 with
  | ',' :: ' ' :: s5 =>
    (match parse4 s5 with
     | some (y2, s6) =>
       (match stripP (" by ".data ++ owner) s6 with
        | some r => some (some y2, r)
        | none => copNoSecond owner s4)
     | none => copNoSecond owner s4)
  | _ => copNoSecond owner s4

/-- Match the copyright pattern
`Copyright \\?\(c\\?\) ([0-9]{4})(, [0-9]{4})? by OWNER`
anchored at the start of `s` (the owner taken as literal text).
Returns the first year, the optional second year and the suffix after
the match. -/
def copMatchAt (owner s : List Char) : Option (Nat × Option Nat × List Char) :=
  match stripP "Copyright ".data s with
  | none => none
  | some s1 =>
    match stripOptBack "(c".data s1 with
    | none => none
    | some (_, s2) =>
      match stripOptBack ") ".data s2 with
      | none => none
      | some (_, s3) =>
        match parse4 s3 with
        | none => none
        | some (y1, s4) =>
          match copTail owner s4 with
          | none => none
          | some (oy2, r) => some (y1, oy2, r)

/-- `copyright_rgx.search`: leftmost match.  Returns the start index,
the two year groups and the length of the full match. -/
def copSearch (owner : List Char) : List Char → Option (Nat × Nat × Option Nat × Nat)
  | [] =>
    (match copMatchAt owner [] with
     | some (y1, oy2, rest) => some (0, y1, oy2, 0 - rest.length)
     | none => none)
  | c :: t =>
    match copMatchAt owner (c :: t) with
    | some (y1, oy2, rest) => some (0, y1, oy2, (c :: t).length - rest.length)
    | none => (copSearch owner t).map (fun r => (r.1 + 1, r.2.1, r.2.2.1, r.2.2.2))

/-- `copyright_rgx.sub(rep, content, 1)`: replace the leftmost match
by the (literal) replacement text. -/
def subFirst (owner content rep : List Char) : List Char :=
  match copSearch owner content with
  | some (i, _, _, len) => content.take i ++ rep ++ content.drop (i + len)
  | none => content

/-- `COPYRIGHT.format(year=year, owner=owner)`. -/
def copyrightText (year : Nat) (owner : List Char) : List Char :=
  "Copyright (c) ".data ++ decimal year ++ " by ".data ++ owner ++
    ". All rights reserved.".data

/-- `os.path.basename`. -/
def basename (f : List Char) : List Char :=
  (f.reverse.takeWhile (fun c => c ≠ '/')).reverse

/-- `os.path.basename(filename).split(".")[-1]`. -/
def ending (f : List Char) : List Char :=
  ((basename f).reverse.takeWhile (fun c => c ≠ '.')).reverse

def HASH_ENDINGS : List (List Char) :=
  ["cfg".data, "conf".data, "Dockerfile".data, "hcl".data, "ini".data,
   "Makefile".data, "properties".data, "ps1".data, "py".data, "sh".data,
   "txt".data, "tf".data, "toml".data, "yaml".data, "yml".data,
   "gitignore".data]

def DASH_ENDINGS : List (List Char) := ["lua".data]

def MD_ENDINGS : List (List Char) := ["md".data]

def STAR_ENDINGS : List (List Char) :=
  ["gradle".data, "groovy".data, "java".data, "js".data, "ts".data,
   "css".data]

/-- `new_copyright.replace("(", r"\(").replace(")", r"\)")` of the
Markdown branch of `wrap_copyright`. -/
def mdEscape (newCopyright : List Char) : List Char :=
  replaceAll (replaceAll newCopyright ['('] ['\\', '(']) [')'] ['\\', ')']

/-- `wrap_copyright`: wrap the copyright line into the comment style
derived from the filename's extension; empty for an unknown style. -/
def wrap_copyright (filename newCopyright : List Char) : List Char :=
  let e := ending filename
  if HASH_ENDINGS.contains e then
    "#\n# ".data ++ newCopyright ++ "\n#\n".data
  else if DASH_ENDINGS.contains e then
    "--\n-- ".data ++ newCopyright ++ "\n--\n".data
  else if MD_ENDINGS.contains e then
    "[//]: # (".data ++ mdEscape newCopyright ++ ")\n".data
  else if STAR_ENDINGS.contains e then
    "/*\n * ".data ++ newCopyright ++ "\n */\n".data
  else []

/-- `insert_missing_copyright`: first component is the content written
back (`none` when nothing is written), second the printed messages. -/
def insert_missing_copyright (filename content : List Char) (year : Nat)
    (owner : List Char) : Option (List Char) × List (List Char) :=
  let wrapped := wrap_copyright filename (copyrightText year owner)
  if wrapped.isEmpty then
    (none, ["Missing copyright for file ".data ++ filename])
  else
    let index := get_index_after_special_lines content
    let newContent :=
      if index ≠ 0 then content.take index ++ wrapped ++ content.drop index
      else wrapped ++ (if content.isEmpty then [] else ['\n']) ++ content
    (some newContent, ["Adding copyright to ".data ++ filename])

/-- Truthiness of `file_authored` (`None` and year `0` are falsy). -/
def file_authored_falsy (authored : Option Nat) : Bool :=
  match authored with
  | none => true
  | some y => y = 0

/-- The `should_check` cascade of `check_copyright`, with its
messages.  `authored` is the year of the last git commit touching the
file (`none` when the file has no git history); `staged` says whether
the file is currently staged. -/
def should_check (authored : Option Nat) (staged : Bool) (curr : Nat)
    (filename : List Char) : Bool × List (List Char) :=
  if file_authored_falsy authored then
    (true, ["File is not yet in git: ".data ++ filename])
  else if authored = some curr then
    (true, ["File was updated this year: ".data ++ filename])
  else if staged then
    (true, ["File is staged to be committed: ".data ++ filename])
  else (false, [])

/-- The update text computed by `check_copyright` for a stale header:
`full_match.replace(str(first_year), f"{first_year}, {curr_year}")`
for a single year, `full_match.replace(str(second_year), f"{curr_year}")`
for a range. -/
def newCopyrightOf (fullMatch : List Char) (y1 : Nat) (oy2 : Option Nat)
    (curr : Nat) : List Char :=
  match oy2 with
  | none => replaceAll fullMatch (decimal y1) (decimal y1 ++ ", ".data ++ decimal curr)
  | some y2 => replaceAll fullMatch (decimal y2) (decimal curr)

/-- Python `a or b` on integer results (`0` falsy). -/
def porNat (a b : Nat) : Nat := if a ≠ 0 then a else b

/-- The body of `check_copyright` once the content has been read.
Returns (exit code, content written back or `none`, messages). -/
def check_copyright_content (filename owner : List Char) (update : Bool)
    (authored : Option Nat) (staged : Bool) (curr : Nat)
    (content : List Char) : Nat × Option (List Char) × List (List Char) :=
  match copSearch owner (content_head content) with
  | some (i, y1, oy2, len) =>
    let fullMatch := ((content_head content).drop i).take len
    let lastYear := porNat (oy2.getD 0) y1
    let sc := should_check authored staged curr filename
    if sc.1 && decide (lastYear < curr) then
      let newCop := newCopyrightOf fullMatch y1 oy2 curr
      if update then
        (1, some (subFirst owner content newCop),
         sc.2 ++ ["Updating copyright: ".data ++ filename])
      else
        (1, none, sc.2 ++ ["Copyright is out-of-date: ".data ++ filename])
    else (0, none, sc.2)
  | none =>
    if update then
      let r := insert_missing_copyright filename content curr owner
      (1, r.1, r.2)
    else (1, none, ["Missing copyright for file ".data ++ filename])

/-- `read_file`: the filesystem outcome is given by the `readable` and
`decodable` flags and the raw text. -/
def read_file (filename : List Char) (readable decodable : Bool)
    (raw : List Char) : Option (List Char) × List (List Char) :=
  if readable then
    if decodable then (some raw, [])
    else (none, ["Cannot decode ".data ++ filename ++ " with 'utf-8'. Skipping.".data])
  else (none, ["Cannot read ".data ++ filename ++ ". Skipping.".data])

/-- `check_copyright`: read the file then run the check. -/
def check_copyright (filename owner : List Char) (update : Bool)
    (authored : Option Nat) (staged : Bool) (curr : Nat)
    (readable decodable : Bool) (raw : List Char) :
    Nat × Option (List Char) × List (List Char) :=
  match read_file filename readable decodable raw with
  | (none, msgs) => (0, none, msgs)
  | (some content, msgs) =>
    let r := check_copyright_content filename owner update authored staged curr content
    (r.1, r.2.1, msgs ++ r.2.2)

/-- Per-file environment for the list-level runner. -/
structure FileEnv where
  filename : List Char
  readable : Bool
  decodable : Bool
  raw : List Char
  authored : Option Nat
  staged : Bool

def copyright_checker_go (owner : List Char) (update : Bool) (curr : Nat)
    (acc : Nat) : List FileEnv → Nat × List (Option (List Char))
  | [] => (acc, [])
  | f :: fs =>
    let r := check_copyright f.filename owner update f.authored f.staged curr
      f.readable f.decodable f.raw
    let rest := copyright_checker_go owner update curr (porNat r.1 acc) fs
    (rest.1, r.2.1 :: rest.2)

/-- `copyright_checker`: run the check on each file, combining exit
codes with `or`; also returns, per file, the content written back
(`none` when the file is untouched). -/
def copyright_checker (files : List FileEnv) (owner : List Char)
    (update : Bool) (curr : Nat) : Nat × List (Option (List Char)) :=
  copyright_checker_go owner update curr 0 files

/-- Match of the version regex
`version = "?(([0-9]+)\.?([0-9+])?\.?([0-9+])?\.?([0-9+])?)"?`
anchored at the start: everything after the leading
`version = "?[0-9]` is optional, so a match is exactly the literal
`version = `, an optional quote, then a digit. -/
def versionAt (s : List Char) : Bool :=
  match stripP "version = ".data s with
  | some ('"' :: c :: _) => c.isDigit
  | some (c :: _) => c.isDigit
  | _ => false

/-- `version_rgx.search`: a match of the version pattern anywhere. -/
def versionSearch : List Char → Bool
  | [] => false
  | s@(_ :: t) => versionAt s || versionSearch t

/-- `check_version_file`, with the file's text and its diff text
(`utils.get_changes`) passed in explicitly. -/
def check_version_file (version_file content changes : List Char) :
    Nat × List (List Char) :=
  if versionSearch content then
    if versionSearch changes then (0, [])
    else (1, ["Version bumped required in ".data ++ version_file])
  else (0, [])

/-- Outcome of resolving one imported name as a submodule
(`imported_module.import_module(name, True)`): success, an
`AstroidImportError` (the name is not a module), or another
`AstroidBuildingException`. -/
inductive NameResolve
  | ok
  | importError
  | buildingError

/-- A top-level `from MODULE import NAMES` node together with the
resolution outcomes the astroid environment would produce for it:
`doImportOk` is whether `node.do_import_module(node.modname)` succeeds,
`resolve` gives the outcome for each imported name. -/
structure ImportFrom where
  modname : List Char
  names : List (List Char)
  doImportOk : Bool
  resolve : List Char → NameResolve

/-- The per-node logic of `_check_only_modules_imported`. -/
def check_import_from (skip : List (List Char)) (node : ImportFrom) : Nat :=
  if skip.contains node.modname then 0
  else if node.doImportOk then
    node.names.foldl
      (fun acc name =>
        if name = "*".data then acc
        else
          match node.resolve name with
          | NameResolve.importError => 1
          | _ => acc) 0
  else
    node.names.foldl
      (fun acc name =>
        match name with
        | c :: _ => if c.isUpper then 1 else acc
        | [] => acc) 0

/-- `_check_only_modules_imported` on one parsed file (its top-level
`ImportFrom` nodes). -/
def check_only_modules_imported_one (nodes : List ImportFrom)
    (skip : List (List Char)) : Nat :=
  nodes.foldl (fun acc n => porNat (check_import_from skip n) acc) 0

/-- `check_only_modules_imported` over a list of parsed files. -/
def check_only_modules_imported (files : List (List ImportFrom))
    (skip : List (List Char)) : Nat :=
  files.foldl (fun acc f => porNat (check_only_modules_imported_one f skip) acc) 0

/-! ### Auxiliary predicates used in theorem statements -/

/-- Four digit characters. -/
def fourDig (d : List Char) : Prop := d.length = 4 ∧ ∀ c ∈ d, c.isDigit

/-- Value of a digit string. -/
def val4 (d : List Char) : Nat := d.foldl (fun a c => 10 * a + digitVal c) 0

/-- Optional backslash. -/
def bsl (b : Bool) : List Char := if b then ['\\'] else []

/-- The optional `, YEAR2` group text. -/
def optYears : Option (List Char) → List Char
  | none => []
  | some d2 => ", ".data ++ d2

/-- The canonical shape of a full match of the copyright pattern:
`Copyright `, optional backslash, `(c`, optional backslash, `) `, four
digits, optionally `, ` and four more digits, ` by `, then the owner. -/
def copFull (e1 e2 : Bool) (d1 : List Char) (opt : Option (List Char))
    (owner : List Char) : List Char :=
  "Copyright ".data ++ bsl e1 ++ "(c".data ++ bsl e2 ++ ") ".data ++ d1 ++
    optYears opt ++ " by ".data ++ owner

/-- No match of the copyright pattern starts anywhere in `s`. -/
def SN (owner s : List Char) : Prop :=
  ∀ i, copMatchAt owner (s.drop i) = none

/-- Owner strings for which the embedded pattern and the updates are
well behaved: lowercase ASCII letters and spaces only.  (The spec
itself flags owner strings with regex metacharacters as unsupported.) -/
def ownerOkB (owner : List Char) : Bool :=
  owner.all (fun c => c.isLower || c = ' ')

/-- Content whose only line-break character is `'\n'`. -/
def contentTame (s : List Char) : Bool :=
  s.all (fun c => !isBreakChar c || c = '\n')

/-- Extensions with a registered comment style. -/
def recognizedExt (e : List Char) : Bool :=
  HASH_ENDINGS.contains e || DASH_ENDINGS.contains e ||
    MD_ENDINGS.contains e || STAR_ENDINGS.contains e

/-- Any detected header has four-digit years at least 1000 (i.e. the
year groups carry no leading zero). -/
def headerYearsOk (owner content : List Char) : Bool :=
  match copSearch owner (content_head content) with
  | some (_, y1, oy2, _) =>
    (1000 ≤ y1 : Bool) &&
      (match oy2 with
       | some y2 => (1000 ≤ y2 : Bool)
       | none => true)
  | none => true

/-! ### Prefix stripping -/

theorem isPre_iff : ∀ p s : List Char, isPre p s = true ↔ ∃ r, s = p ++ r := by
  intro p
  induction p with
  | nil =>
    intro s
    simp [isPre]
  | cons a as ih =>
    intro s
    cases s with
    | nil =>
      simp [isPre]
    | cons b bs =>
      rw [isPre]
      simp only [Bool.and_eq_true, decide_eq_true_eq, ih, List.cons_append]
      constructor
      · rintro ⟨rfl, r, rfl⟩
        exact ⟨r, rfl⟩
      · rintro ⟨r, h⟩
        cases h
        exact ⟨rfl, r, rfl⟩

theorem stripP_eq_some {p : List Char} : ∀ {s r : List Char},
    stripP p s = some r ↔ s = p ++ r := by
  induction p with
  | nil =>
    intro s r
    simp [stripP]
  | cons a as ih =>
    intro s r
    cases s with
    | nil =>
      simp [stripP]
    | cons b bs =>
      by_cases hab : a = b
      · subst hab
        simp [stripP, ih]
      · simp only [stripP, if_neg (fun h : a = b => hab h)]
        constructor
        · intro h
          exact Option.noConfusion h
        · intro h
          exact absurd ((List.cons.inj h).1) (fun hba => hab hba.symm)

theorem stripP_self (p r : List Char) : stripP p (p ++ r) = some r :=
  stripP_eq_some.2 rfl

/-! ### Digits and decimal rendering -/

theorem char_toNat_inj {a b : Char} (h : a.toNat = b.toNat) : a = b :=
  Char.ext (UInt32.ext h)

theorem isDigit_toNat {c : Char} (h : c.isDigit = true) :
    48 ≤ c.toNat ∧ c.toNat ≤ 57 := by
  simp [Char.isDigit] at h
  exact h

theorem digitVal_lt {c : Char} (h : c.isDigit = true) : digitVal c < 10 := by
  rcases isDigit_toNat h with ⟨h1, h2⟩
  unfold digitVal
  omega

theorem digitChar_toNat {d : Nat} (h : d < 10) :
    (Nat.digitChar d).toNat = 48 + d := by
  interval_cases d <;> decide

theorem digitChar_isDigit {d : Nat} (h : d < 10) :
    (Nat.digitChar d).isDigit = true := by
  interval_cases d <;> decide

theorem digitVal_digitChar {d : Nat} (h : d < 10) :
    digitVal (Nat.digitChar d) = d := by
  unfold digitVal
  rw [digitChar_toNat h]
  omega

theorem digitChar_digitVal {c : Char} (h : c.isDigit = true) :
    Nat.digitChar (digitVal c) = c := by
  apply char_toNat_inj
  rcases isDigit_toNat h with ⟨h1, h2⟩
  have hd : digitVal c < 10 := digitVal_lt h
  rw [digitChar_toNat hd]
  unfold digitVal
  omega

theorem parse4_sound {s r : List Char} {n : Nat} (h : parse4 s = some (n, r)) :
    ∃ a b c d, s = a :: b :: c :: d :: r ∧
      a.isDigit ∧ b.isDigit ∧ c.isDigit ∧ d.isDigit ∧
      n = 1000 * digitVal a + 100 * digitVal b + 10 * digitVal c + digitVal d ∧
      n < 10000 := by
  match s with
  | [] => exact absurd h (by simp [parse4])
  | [a] => exact absurd h (by simp [parse4])
  | [a, b] => exact absurd h (by simp [parse4])
  | [a, b, c] => exact absurd h (by simp [parse4])
  | a :: b :: c :: d :: r0 =>
    rw [parse4] at h
    by_cases hd : a.isDigit && b.isDigit && c.isDigit && d.isDigit
    · rw [if_pos hd] at h
      simp only [Option.some.injEq, Prod.mk.injEq] at h
      obtain ⟨hn, hr⟩ := h
      simp only [Bool.and_eq_true] at hd
      obtain ⟨⟨⟨ha, hb⟩, hc⟩, hdd⟩ := hd
      refine ⟨a, b, c, d, by rw [hr], ha, hb, hc, hdd, hn.symm, ?_⟩
      have := digitVal_lt ha
      have := digitVal_lt hb
      have := digitVal_lt hc
      have := digitVal_lt hdd
      omega
    · rw [if_neg hd] at h
      exact Option.noConfusion h

theorem parse4_complete {a b c d : Char} {r : List Char}
    (ha : a.isDigit) (hb : b.isDigit) (hc : c.isDigit) (hd : d.isDigit) :
    parse4 (a :: b :: c :: d :: r) =
      some (1000 * digitVal a + 100 * digitVal b + 10 * digitVal c + digitVal d, r) := by
  rw [parse4, if_pos (by simp [ha, hb, hc, hd])]

theorem decimalAux_fuel : ∀ n f1 f2, n ≤ f1 → n ≤ f2 →
    decimalAux f1 n = decimalAux f2 n := by
  intro n
  induction n using Nat.strong_induction_on with
  | _ n ih =>
    intro f1 f2 h1 h2
    by_cases hn : n < 10
    · match f1, f2 with
      | 0, 0 => rfl
      | 0, g + 1 =>
        rw [decimalAux, decimalAux, if_pos hn, Nat.mod_eq_of_lt hn]
      | g + 1, 0 =>
        rw [decimalAux, decimalAux, if_pos hn, Nat.mod_eq_of_lt hn]
      | g + 1, g2 + 1 =>
        rw [decimalAux, decimalAux, if_pos hn, if_pos hn]
    · match f1, f2 with
      | 0, _ => omega
      | _, 0 => omega
      | g + 1, g2 + 1 =>
        rw [decimalAux, decimalAux, if_neg hn, if_neg hn]
        have hd : n / 10 < n := Nat.div_lt_self (by omega) (by omega)
        rw [ih (n / 10) hd g g2 (by omega) (by omega)]

theorem decimal_small {n : Nat} (h : n < 10) : decimal n = [Nat.digitChar n] := by
  unfold decimal
  match n with
  | 0 => rfl
  | m + 1 => rw [decimalAux, if_pos h]

theorem decimal_step {n : Nat} (h : 10 ≤ n) :
    decimal n = decimal (n / 10) ++ [Nat.digitChar (n % 10)] := by
  unfold decimal
  match n, h with
  | m + 1, h =>
    rw [decimalAux, if_neg (by omega)]
    have hd : (m + 1) / 10 < m + 1 := Nat.div_lt_self (by omega) (by omega)
    rw [decimalAux_fuel ((m + 1) / 10) m ((m + 1) / 10) (by omega) le_rfl]

theorem decimal_four {n : Nat} (h1 : 1000 ≤ n) (h2 : n ≤ 9999) :
    decimal n = [Nat.digitChar (n / 1000), Nat.digitChar (n / 100 % 10),
      Nat.digitChar (n / 10 % 10), Nat.digitChar (n % 10)] := by
  rw [decimal_step (by omega), decimal_step (by omega), decimal_step (by omega),
    decimal_small (by omega)]
  have e1 : n / 10 / 10 = n / 100 := by omega
  rw [e1]
  have e2 : n / 100 / 10 = n / 1000 := by omega
  rw [e2]
  simp

theorem decimal_four_digits {n : Nat} (h1 : 1000 ≤ n) (h2 : n ≤ 9999) :
    fourDig (decimal n) := by
  rw [decimal_four h1 h2]
  refine ⟨rfl, ?_⟩
  intro c hc
  simp only [List.mem_cons, List.not_mem_nil, or_false] at hc
  rcases hc with rfl | rfl | rfl | rfl
  · exact digitChar_isDigit (by omega)
  · exact digitChar_isDigit (by omega)
  · exact digitChar_isDigit (by omega)
  · exact digitChar_isDigit (by omega)

theorem val4_cons4 (a b c d : Char) :
    val4 [a, b, c, d] =
      1000 * digitVal a + 100 * digitVal b + 10 * digitVal c + digitVal d := by
  unfold val4
  simp [List.foldl]
  ring

theorem parse4_decimal {n : Nat} (h1 : 1000 ≤ n) (h2 : n ≤ 9999)
    (r : List Char) : parse4 (decimal n ++ r) = some (n, r) := by
  rw [decimal_four h1 h2]
  simp only [List.cons_append, List.nil_append]
  rw [parse4_complete (digitChar_isDigit (by omega)) (digitChar_isDigit (by omega))
    (digitChar_isDigit (by omega)) (digitChar_isDigit (by omega))]
  rw [digitVal_digitChar (by omega), digitVal_digitChar (by omega),
    digitVal_digitChar (by omega), digitVal_digitChar (by omega)]
  congr 1
  congr 1
  omega

/-- A matched four-digit group with value at least 1000 is literally the
decimal rendering of its value. -/
theorem decimal_of_fourDig {d : List Char} (hd : fourDig d)
    (hv : 1000 ≤ val4 d) : decimal (val4 d) = d := by
  obtain ⟨hlen, hdig⟩ := hd
  match d, hlen with
  | [a, b, c, e], _ =>
    have ha : a.isDigit := hdig a (by simp)
    have hb : b.isDigit := hdig b (by simp)
    have hc : c.isDigit := hdig c (by simp)
    have he : e.isDigit := hdig e (by simp)
    have hva := digitVal_lt ha
    have hvb := digitVal_lt hb
    have hvc := digitVal_lt hc
    have hve := digitVal_lt he
    rw [val4_cons4] at hv ⊢
    rw [decimal_four (by omega) (by omega)]
    have e1 : (1000 * digitVal a + 100 * digitVal b + 10 * digitVal c + digitVal e) / 1000 = digitVal a := by omega
    have e2 : (1000 * digitVal a + 100 * digitVal b + 10 * digitVal c + digitVal e) / 100 % 10 = digitVal b := by omega
    have e3 : (1000 * digitVal a + 100 * digitVal b + 10 * digitVal c + digitVal e) / 10 % 10 = digitVal c := by omega
    have e4 : (1000 * digitVal a + 100 * digitVal b + 10 * digitVal c + digitVal e) % 10 = digitVal e := by omega
    rw [e1, e2, e3, e4, digitChar_digitVal ha, digitChar_digitVal hb,
      digitChar_digitVal hc, digitChar_digitVal he]

/-! ### Soundness and completeness of the copyright matcher -/

theorem stripOptBack_sound {pat s : List Char} {e : Bool} {r : List Char}
    (h : stripOptBack pat s = some (e, r)) : s = bsl e ++ pat ++ r := by
  unfold stripOptBack at h
  split at h
  · rename_i t
    cases hsp : stripP pat t with
    | none => rw [hsp] at h; exact Option.noConfusion h
    | some r0 =>
      rw [hsp] at h
      simp only [Option.some.injEq, Prod.mk.injEq] at h
      obtain ⟨he, hr⟩ := h
      rw [← he, ← hr, stripP_eq_some.1 hsp]
      rfl
  · cases hsp : stripP pat s with
    | none => rw [hsp] at h; exact Option.noConfusion h
    | some r0 =>
      rw [hsp] at h
      simp only [Option.some.injEq, Prod.mk.injEq] at h
      obtain ⟨he, hr⟩ := h
      rw [← he, ← hr, stripP_eq_some.1 hsp]
      rfl

theorem stripOptBack_complete {pat : List Char} {c0 : Char}
    (hp : pat.head? = some c0) (hc : c0 ≠ '\\') (e : Bool) (r : List Char) :
    stripOptBack pat (bsl e ++ (pat ++ r)) = some (e, r) := by
  cases pat with
  | nil => exact Option.noConfusion hp
  | cons p0 pr =>
    have hp0 : p0 = c0 := by
      simp only [List.head?] at hp
      exact Option.some.inj hp
    cases e with
    | true =>
      show stripOptBack (p0 :: pr) ('\\' :: ((p0 :: pr) ++ r)) = some (true, r)
      unfold stripOptBack
      simp only [stripP_self]
    | false =>
      show stripOptBack (p0 :: pr) ((p0 :: pr) ++ r) = some (false, r)
      unfold stripOptBack
      split
      · rename_i t heq
        exfalso
        apply hc
        rw [← hp0]
        have h0 : p0 = '\\' := (List.cons.inj heq).1
        rw [h0]
      · simp only [stripP_self]

theorem copNoSecond_self (owner r : List Char) :
    copNoSecond owner ((" by ".data ++ owner) ++ r) = some (none, r) := by
  simp [copNoSecond, stripP, stripP_self]

theorem copTail_no_group (owner rest : List Char) :
    copTail owner ((" by ".data ++ owner) ++ rest) = some (none, rest) := by
  simp [copTail, copNoSecond, stripP, stripP_self]

theorem copTail_group {d2 : List Char} (owner rest : List Char)
    (h2 : fourDig d2) :
    copTail owner (", ".data ++ (d2 ++ ((" by ".data ++ owner) ++ rest))) =
      some (some (val4 d2), rest) := by
  obtain ⟨hlen2, hdig2⟩ := h2
  match d2, hlen2 with
  | [a2, b2, c2, e2], _ =>
    have ha2 : a2.isDigit := hdig2 a2 (by simp)
    have hb2 : b2.isDigit := hdig2 b2 (by simp)
    have hc2 : c2.isDigit := hdig2 c2 (by simp)
    have he2 : e2.isDigit := hdig2 e2 (by simp)
    simp [copTail, parse4_complete ha2 hb2 hc2 he2, stripP, stripP_self,
      val4_cons4]

theorem copTail_no_group' (owner rest : List Char) :
    copTail owner (' ' :: 'b' :: 'y' :: ' ' :: (owner ++ rest)) = some (none, rest) := by
  simp [copTail, copNoSecond, stripP, stripP_self]

theorem copTail_group' {a2 b2 c2 e2 : Char} (owner rest : List Char)
    (ha2 : a2.isDigit) (hb2 : b2.isDigit) (hc2 : c2.isDigit) (he2 : e2.isDigit) :
    copTail owner
      (',' :: ' ' :: a2 :: b2 :: c2 :: e2 ::
        (' ' :: 'b' :: 'y' :: ' ' :: (owner ++ rest))) =
      some (some (val4 [a2, b2, c2, e2]), rest) := by
  simp [copTail, parse4_complete ha2 hb2 hc2 he2, stripP, stripP_self, val4_cons4]

theorem copMatchAt_complete {owner d1 : List Char} {opt : Option (List Char)}
    (e1 e2 : Bool) (rest : List Char) (h1 : fourDig d1)
    (hopt : ∀ d2, opt = some d2 → fourDig d2) :
    copMatchAt owner (copFull e1 e2 d1 opt owner ++ rest) =
      some (val4 d1, opt.map val4, rest) := by
  obtain ⟨hlen, hdig⟩ := h1
  match d1, hlen with
  | [a, b, c, d], _ =>
    have ha : a.isDigit := hdig a (by simp)
    have hb : b.isDigit := hdig b (by simp)
    have hc : c.isDigit := hdig c (by simp)
    have hd : d.isDigit := hdig d (by simp)
    cases opt with
    | none =>
      have hs : copFull e1 e2 [a, b, c, d] none owner ++ rest =
          "Copyright ".data ++ (bsl e1 ++ ("(c".data ++ (bsl e2 ++ (") ".data ++
            (a :: b :: c :: d :: ((" by ".data ++ owner) ++ rest)))))) := by
        simp [copFull, optYears, List.append_assoc]
      rw [hs]
      unfold copMatchAt
      simp only [stripP_self,
        @stripOptBack_complete "(c".data '(' rfl (by decide),
        @stripOptBack_complete ") ".data ')' rfl (by decide),
        parse4_complete ha hb hc hd]
      simp [copTail_no_group', val4_cons4]
    | some d2 =>
      have h2 : fourDig d2 := hopt d2 rfl
      obtain ⟨hlen2, hdig2⟩ := h2
      match d2, hlen2 with
      | [a2, b2, c2, e2x], _ =>
        have ha2 : a2.isDigit := hdig2 a2 (by simp)
        have hb2 : b2.isDigit := hdig2 b2 (by simp)
        have hc2 : c2.isDigit := hdig2 c2 (by simp)
        have he2 : e2x.isDigit := hdig2 e2x (by simp)
        have hs : copFull e1 e2 [a, b, c, d] (some [a2, b2, c2, e2x]) owner ++ rest =
            "Copyright ".data ++ (bsl e1 ++ ("(c".data ++ (bsl e2 ++ (") ".data ++
              (a :: b :: c :: d ::
                (',' :: ' ' :: a2 :: b2 :: c2 :: e2x ::
                  ((" by ".data ++ owner) ++ rest))))))) := by
          simp [copFull, optYears, List.append_assoc]
        rw [hs]
        unfold copMatchAt
        simp only [stripP_self,
          @stripOptBack_complete "(c".data '(' rfl (by decide),
          @stripOptBack_complete ") ".data ')' rfl (by decide),
          parse4_complete ha hb hc hd]
        simp [copTail_group' owner rest ha2 hb2 hc2 he2, val4_cons4]

theorem copNoSecond_sound {owner s4 : List Char} {oy2 : Option Nat} {r : List Char}
    (h : copNoSecond owner s4 = some (oy2, r)) :
    oy2 = none ∧ s4 = (" by ".data ++ owner) ++ r := by
  unfold copNoSecond at h
  cases hsp : stripP (" by ".data ++ owner) s4 with
  | none => rw [hsp] at h; exact Option.noConfusion h
  | some r0 =>
    rw [hsp] at h
    simp only [Option.some.injEq, Prod.mk.injEq] at h
    obtain ⟨h1, h2⟩ := h
    exact ⟨h1.symm, by rw [← h2]; exact stripP_eq_some.1 hsp⟩

theorem copTail_sound {owner s4 : List Char} {oy2 : Option Nat} {r : List Char}
    (h : copTail owner s4 = some (oy2, r)) :
    (oy2 = none ∧ s4 = (" by ".data ++ owner) ++ r) ∨
    (∃ d2, oy2 = some (val4 d2) ∧ fourDig d2 ∧
      s4 = (", ".data ++ d2) ++ ((" by ".data ++ owner) ++ r)) := by
  unfold copTail at h
  split at h
  · rename_i s5
    cases hp : parse4 s5 with
    | none =>
      rw [hp] at h
      exact Or.inl (copNoSecond_sound h)
    | some p =>
      obtain ⟨y2, s6⟩ := p
      simp only [hp] at h
      cases hst : stripP (" by ".data ++ owner) s6 with
      | none =>
        simp only [hst] at h
        exact Or.inl (copNoSecond_sound h)
      | some r0 =>
        simp only [hst] at h
        simp only [Option.some.injEq, Prod.mk.injEq] at h
        obtain ⟨h1, h2⟩ := h
        obtain ⟨a, b, c, d, hs5, ha, hb, hc, hd, hy2, _⟩ := parse4_sound hp
        refine Or.inr ⟨[a, b, c, d], ?_, ⟨rfl, ?_⟩, ?_⟩
        · rw [← h1, hy2, val4_cons4]
        · intro x hx
          simp only [List.mem_cons, List.not_mem_nil, or_false] at hx
          rcases hx with rfl | rfl | rfl | rfl
          · exact ha
          · exact hb
          · exact hc
          · exact hd
        · rw [hs5, stripP_eq_some.1 hst, h2]
          simp
  · exact Or.inl (copNoSecond_sound h)

theorem copMatchAt_sound {owner s : List Char} {y1 : Nat} {oy2 : Option Nat}
    {rest : List Char} (h : copMatchAt owner s = some (y1, oy2, rest)) :
    ∃ e1 e2 d1 opt, s = copFull e1 e2 d1 opt owner ++ rest ∧ fourDig d1 ∧
      val4 d1 = y1 ∧ oy2 = opt.map val4 ∧ (∀ d2, opt = some d2 → fourDig d2) := by
  unfold copMatchAt at h
  split at h
  · exact Option.noConfusion h
  · rename_i s1 h1
    split at h
    · exact Option.noConfusion h
    · rename_i e1v s2 h2
      split at h
      · exact Option.noConfusion h
      · rename_i e2v s3 h3
        split at h
        · exact Option.noConfusion h
        · rename_i y1v s4 h4
          split at h
          · exact Option.noConfusion h
          · rename_i oy2v rv h5
            simp only [Option.some.injEq, Prod.mk.injEq] at h
            obtain ⟨hy1, hoy2, hr⟩ := h
            obtain ⟨a, b, c, d, hs3, ha, hb, hc, hd, hyv, _⟩ := parse4_sound h4
            have hdig1 : fourDig [a, b, c, d] := by
              refine ⟨rfl, ?_⟩
              intro x hx
              simp only [List.mem_cons, List.not_mem_nil, or_false] at hx
              rcases hx with rfl | rfl | rfl | rfl
              · exact ha
              · exact hb
              · exact hc
              · exact hd
            have hval1 : val4 [a, b, c, d] = y1 := by
              rw [val4_cons4, ← hyv, hy1]
            rcases copTail_sound h5 with ⟨hoyn, hs4⟩ | ⟨d2, hoys, hd2, hs4⟩
            · refine ⟨e1v, e2v, [a, b, c, d], none, ?_, hdig1, hval1, ?_, ?_⟩
              · rw [stripP_eq_some.1 h1, stripOptBack_sound h2, stripOptBack_sound h3,
                  hs3, hs4, ← hr]
                simp [copFull, optYears, List.append_assoc]
              · rw [← hoy2, hoyn]
                rfl
              · intro d2 hd2
                exact Option.noConfusion hd2
            · refine ⟨e1v, e2v, [a, b, c, d], some d2, ?_, hdig1, hval1, ?_, ?_⟩
              · rw [stripP_eq_some.1 h1, stripOptBack_sound h2, stripOptBack_sound h3,
                  hs3, hs4, ← hr]
                simp [copFull, optYears, List.append_assoc]
              · rw [← hoy2, hoys]
                rfl
              · intro d2x hd2x
                rw [Option.some.inj hd2x] at hd2
                exact hd2

theorem copMatchAt_ext {owner s : List Char} {y1 : Nat} {oy2 : Option Nat}
    {rest : List Char} (h : copMatchAt owner s = some (y1, oy2, rest)) :
    ∃ e1 e2 d1 opt, s = copFull e1 e2 d1 opt owner ++ rest ∧
      (∀ r2, copMatchAt owner (copFull e1 e2 d1 opt owner ++ r2) = some (y1, oy2, r2)) := by
  obtain ⟨e1, e2, d1, opt, hs, hd1, hv, hoy, hopt⟩ := copMatchAt_sound h
  refine ⟨e1, e2, d1, opt, hs, ?_⟩
  intro r2
  rw [copMatchAt_complete e1 e2 r2 hd1 hopt, hv, ← hoy]

/-! ### Character classes -/

theorem break_false_of_range {c : Char} (h1 : 32 ≤ c.toNat) (h2 : c.toNat ≤ 122) :
    isBreakChar c = false := by
  by_contra hb
  rw [Bool.not_eq_false] at hb
  simp only [isBreakChar, Bool.or_eq_true, decide_eq_true_eq] at hb
  rcases hb with (((((((((rfl | rfl) | rfl) | rfl) | rfl) | rfl) | rfl) | rfl) | rfl) | rfl) <;>
    first
      | exact absurd h1 (by decide)
      | exact absurd h2 (by decide)

theorem isDigit_not_break {c : Char} (h : c.isDigit = true) : isBreakChar c = false := by
  rcases isDigit_toNat h with ⟨h1, h2⟩
  exact break_false_of_range (by omega) (by omega)

theorem isDigit_ne {c c0 : Char} (h : c.isDigit = true)
    (h0 : c0.toNat < 48 ∨ 57 < c0.toNat) : c ≠ c0 := by
  rcases isDigit_toNat h with ⟨h1, h2⟩
  intro he
  subst he
  omega

theorem isLower_toNat {c : Char} (h : c.isLower = true) :
    97 ≤ c.toNat ∧ c.toNat ≤ 122 := by
  simp [Char.isLower] at h
  exact h

/-- The character facts used about an owner passing `ownerOkB`. -/
theorem ownerOk_chars {owner : List Char} (h : ownerOkB owner = true) :
    ∀ c ∈ owner, isBreakChar c = false ∧ c ≠ 'C' ∧ c.isDigit = false ∧
      c ≠ '(' ∧ c ≠ ')' ∧ c ≠ '\\' ∧ c ≠ '\n' := by
  intro c hc
  have hco : c.isLower = true ∨ c = ' ' := by
    simp only [ownerOkB, List.all_eq_true] at h
    have := h c hc
    simpa using this
  rcases hco with hl | rfl
  · rcases isLower_toNat hl with ⟨h1, h2⟩
    refine ⟨break_false_of_range (by omega) (by omega), ?_, ?_, ?_, ?_, ?_, ?_⟩
    · intro he; subst he; exact absurd h1 (by decide)
    · by_contra hd
      rw [Bool.not_eq_false] at hd
      rcases isDigit_toNat hd with ⟨h3, h4⟩
      omega
    · intro he; subst he; exact absurd h1 (by decide)
    · intro he; subst he; exact absurd h1 (by decide)
    · intro he; subst he; exact absurd h1 (by decide)
    · intro he; subst he; exact absurd h1 (by decide)
  · exact ⟨by decide, by decide, by decide, by decide, by decide, by decide, by decide⟩

theorem mem_bsl {c : Char} {e : Bool} (hc : c ∈ bsl e) : c = '\\' := by
  cases e
  · simp [bsl] at hc
  · simp [bsl] at hc
    exact hc

theorem copFull_no_break {e1 e2 : Bool} {d1 : List Char} {opt : Option (List Char)}
    {owner : List Char} (hd1 : ∀ c ∈ d1, c.isDigit = true)
    (hopt : ∀ d2, opt = some d2 → ∀ c ∈ d2, c.isDigit = true)
    (how : ∀ c ∈ owner, isBreakChar c = false) :
    ∀ c ∈ copFull e1 e2 d1 opt owner, isBreakChar c = false := by
  intro c hc
  simp only [copFull, List.append_assoc, List.mem_append] at hc
  rcases hc with hc | hc | hc | hc | hc | hc | hc | hc | hc
  · fin_cases hc <;> decide
  · rw [mem_bsl hc]; decide
  · fin_cases hc <;> decide
  · rw [mem_bsl hc]; decide
  · fin_cases hc <;> decide
  · exact isDigit_not_break (hd1 c hc)
  · cases opt with
    | none => simp [optYears] at hc
    | some d2 =>
      simp only [optYears, List.mem_append] at hc
      rcases hc with hc | hc
      · fin_cases hc <;> decide
      · exact isDigit_not_break (hopt d2 rfl c hc)
  · fin_cases hc <;> decide
  · exact how c hc

theorem copFull_C {e1 e2 : Bool} {d1 : List Char} {opt : Option (List Char)}
    {owner : List Char} (hd1 : ∀ c ∈ d1, c.isDigit = true)
    (hopt : ∀ d2, opt = some d2 → ∀ c ∈ d2, c.isDigit = true)
    (how : ∀ c ∈ owner, c ≠ 'C') :
    ∃ t, copFull e1 e2 d1 opt owner = 'C' :: t ∧ ∀ c ∈ t, c ≠ 'C' := by
  refine ⟨"opyright ".data ++ bsl e1 ++ "(c".data ++ bsl e2 ++ ") ".data ++ d1 ++
    optYears opt ++ " by ".data ++ owner, ?_, ?_⟩
  · simp [copFull]
  · intro c hc
    simp only [List.append_assoc, List.mem_append] at hc
    rcases hc with hc | hc | hc | hc | hc | hc | hc | hc | hc
    · fin_cases hc <;> decide
    · rw [mem_bsl hc]; decide
    · fin_cases hc <;> decide
    · rw [mem_bsl hc]; decide
    · fin_cases hc <;> decide
    · exact isDigit_ne (hd1 c hc) (by decide)
    · cases opt with
      | none => simp [optYears] at hc
      | some d2 =>
        simp only [optYears, List.mem_append] at hc
        rcases hc with hc | hc
        · fin_cases hc <;> decide
        · exact isDigit_ne (hopt d2 rfl c hc) (by decide)
    · fin_cases hc <;> decide
    · exact how c hc

theorem copMatchAt_head {owner s : List Char} {v : Nat × Option Nat × List Char}
    (h : copMatchAt owner s = some v) : ∃ t, s = 'C' :: t := by
  unfold copMatchAt at h
  split at h
  · exact Option.noConfusion h
  · rename_i s1 h1
    exact ⟨"opyright ".data ++ s1, by rw [stripP_eq_some.1 h1]; rfl⟩

theorem copMatchAt_not_C {owner : List Char} {c : Char} {s : List Char}
    (hc : c ≠ 'C') : copMatchAt owner (c :: s) = none := by
  cases h : copMatchAt owner (c :: s) with
  | none => rfl
  | some v =>
    obtain ⟨t, ht⟩ := copMatchAt_head h
    exact absurd (List.cons.inj ht).1 hc

theorem copMatchAt_nil (owner : List Char) : copMatchAt owner [] = none := rfl

/-! ### The leftmost search -/

theorem copSearch_none_iff {owner s : List Char} :
    copSearch owner s = none ↔ ∀ i, copMatchAt owner (s.drop i) = none := by
  induction s with
  | nil =>
    constructor
    · intro _ i
      simp [copMatchAt_nil]
    · intro _
      rfl
  | cons c t ih =>
    unfold copSearch
    cases h : copMatchAt owner (c :: t) with
    | some v =>
      simp only []
      constructor
      · intro h2
        exact Option.noConfusion h2
      · intro h2
        have := h2 0
        rw [List.drop_zero] at this
        rw [this] at h
        exact Option.noConfusion h
    | none =>
      simp only [Option.map_eq_none']
      constructor
      · intro h2 i
        cases i with
        | zero => rw [List.drop_zero]; exact h
        | succ i =>
          have h3 : copSearch owner t = none := by
            cases h4 : copSearch owner t with
            | none => rfl
            | some w => rw [h4] at h2; exact Option.noConfusion h2
          exact ih.1 h3 i
      · intro h2
        have h3 : copSearch owner t = none := ih.2 (fun i => h2 (i + 1))
        rw [h3]

theorem copSearch_some_spec {owner s : List Char} {p y1 : Nat} {oy2 : Option Nat}
    {len : Nat} (h : copSearch owner s = some (p, y1, oy2, len)) :
    ∃ rest, copMatchAt owner (s.drop p) = some (y1, oy2, rest) ∧
      len = (s.drop p).length - rest.length ∧
      ∀ j, j < p → copMatchAt owner (s.drop j) = none := by
  induction s generalizing p y1 oy2 len with
  | nil =>
    rw [copSearch, copMatchAt_nil] at h
    exact Option.noConfusion h
  | cons c t ih =>
    rw [copSearch] at h
    cases hm : copMatchAt owner (c :: t) with
    | some v =>
      obtain ⟨y1v, oy2v, restv⟩ := v
      rw [hm] at h
      simp only [Option.some.injEq, Prod.mk.injEq] at h
      obtain ⟨hp, hy, ho, hl⟩ := h
      subst hp
      refine ⟨restv, ?_, ?_, ?_⟩
      · rw [List.drop_zero, hm, hy, ho]
      · rw [List.drop_zero, ← hl]
      · intro j hj
        omega
    | none =>
      rw [hm] at h
      cases hs : copSearch owner t with
      | none => rw [hs] at h; exact Option.noConfusion h
      | some q =>
        obtain ⟨p', y1', oy2', len'⟩ := q
        rw [hs] at h
        simp only [Option.map_some', Option.some.injEq, Prod.mk.injEq] at h
        obtain ⟨hp, hy, ho, hl⟩ := h
        obtain ⟨rest, hm', hlen', hmin'⟩ := ih hs
        subst hy
        subst ho
        refine ⟨rest, ?_, ?_, ?_⟩
        · rw [← hp]
          exact hm'
        · rw [← hp, ← hl]
          exact hlen'
        · intro j hj
          cases j with
          | zero => rw [List.drop_zero]; exact hm
          | succ j' =>
            apply hmin'
            omega

theorem copSearch_at {owner s : List Char} {j y1 : Nat} {oy2 : Option Nat}
    {rest : List Char}
    (hj : copMatchAt owner (s.drop j) = some (y1, oy2, rest))
    (hmin : ∀ i, i < j → copMatchAt owner (s.drop i) = none) :
    copSearch owner s = some (j, y1, oy2, (s.drop j).length - rest.length) := by
  induction j generalizing s with
  | zero =>
    rw [List.drop_zero] at hj
    cases s with
    | nil =>
      rw [copMatchAt_nil] at hj
      exact Option.noConfusion hj
    | cons c t =>
      rw [copSearch, hj, List.drop_zero]
  | succ j' ih =>
    have h0 : copMatchAt owner s = none := by
      have := hmin 0 (by omega)
      rwa [List.drop_zero] at this
    cases s with
    | nil =>
      rw [List.drop_nil] at hj
      rw [copMatchAt_nil] at hj
      exact Option.noConfusion hj
    | cons c t =>
      rw [copSearch, h0]
      have ht : copSearch owner t = some (j', y1, oy2, (t.drop j').length - rest.length) := by
        apply ih
        · exact hj
        · intro i hi
          exact hmin (i + 1) (by omega)
      rw [ht]
      rfl

theorem copSearch_isSome_of {owner s : List Char} {i : Nat}
    {v : Nat × Option Nat × List Char}
    (h : copMatchAt owner (s.drop i) = some v) :
    ∃ w, copSearch owner s = some w := by
  cases hs : copSearch owner s with
  | none =>
    rw [copSearch_none_iff.1 hs i] at h
    exact Option.noConfusion h
  | some w => exact ⟨w, rfl⟩

/-! ### Matches never cross line breaks -/

theorem copMatchAt_append {owner u z : List Char} {y1 : Nat} {oy2 : Option Nat}
    {rest : List Char} (h : copMatchAt owner u = some (y1, oy2, rest)) :
    copMatchAt owner (u ++ z) = some (y1, oy2, rest ++ z) := by
  obtain ⟨e1, e2, d1, opt, hu, hext⟩ := copMatchAt_ext h
  rw [hu, List.append_assoc]
  exact hext (rest ++ z)

theorem copMatchAt_of_append_nl {owner u w' : List Char} {y1 : Nat}
    {oy2 : Option Nat} {rest : List Char}
    (hown : ∀ c ∈ owner, isBreakChar c = false)
    (h : copMatchAt owner (u ++ '\n' :: w') = some (y1, oy2, rest)) :
    ∃ rest', copMatchAt owner u = some (y1, oy2, rest') ∧
      rest = rest' ++ '\n' :: w' := by
  obtain ⟨e1, e2, d1, opt, hs, hd1, hv, hoy, hopt⟩ := copMatchAt_sound h
  set m := copFull e1 e2 d1 opt owner with hm
  have hnb : ∀ c ∈ m, isBreakChar c = false :=
    copFull_no_break hd1.2 (fun d2 hd2 => (hopt d2 hd2).2) hown
  have hle : m.length ≤ u.length := by
    by_contra hgt
    push_neg at hgt
    have htm : m = u ++ '\n' :: w'.take (m.length - u.length - 1) := by
      have h5 : (u ++ '\n' :: w').take m.length = m := by
        rw [hs, List.take_left']
        rfl
      rw [List.take_append_eq_append_take] at h5
      rw [List.take_of_length_le (by omega)] at h5
      have hz : m.length - u.length = (m.length - u.length - 1) + 1 := by omega
      rw [hz] at h5
      simp only [List.take_succ_cons] at h5
      exact h5.symm
    have h4 : '\n' ∈ m := by
      rw [htm]
      simp
    have := hnb '\n' h4
    simp [isBreakChar] at this
  have hu : u = m ++ u.drop m.length := by
    have ht : u.take m.length = m := by
      have h5 : (u ++ '\n' :: w').take m.length = u.take m.length := by
        rw [List.take_append_eq_append_take]
        have hz : m.length - u.length = 0 := by omega
        rw [hz]
        simp
      rw [hs] at h5
      rw [List.take_left'] at h5
      · exact h5.symm
      · rfl
    conv_lhs => rw [← List.take_append_drop m.length u]
    rw [ht]
  have h6 : rest = u.drop m.length ++ '\n' :: w' := by
    have h7 : (u ++ '\n' :: w').drop m.length = u.drop m.length ++ '\n' :: w' := by
      rw [List.drop_append_eq_append_drop]
      have hz : m.length - u.length = 0 := by omega
      rw [hz]
      simp
    rw [hs] at h7
    rw [List.drop_left'] at h7
    · exact h7
    · rfl
  refine ⟨u.drop m.length, ?_, h6⟩
  conv_lhs => rw [hu]
  rw [hm]
  rw [copMatchAt_complete e1 e2 (u.drop (copFull e1 e2 d1 opt owner).length) hd1 hopt,
    hv, ← hoy]

/-- No-match transfers through appending a newline-headed suffix. -/
theorem matchAt_none_append_nl {owner u w' : List Char}
    (hown : ∀ c ∈ owner, isBreakChar c = false)
    (hu : copMatchAt owner u = none) :
    copMatchAt owner (u ++ '\n' :: w') = none := by
  cases h : copMatchAt owner (u ++ '\n' :: w') with
  | none => rfl
  | some v =>
    obtain ⟨y1, oy2, rest⟩ := v
    obtain ⟨rest', hmu, _⟩ := copMatchAt_of_append_nl hown h
    rw [hmu] at hu
    exact Option.noConfusion hu

theorem SN_of_parts_nl {owner x w' : List Char}
    (hown : ∀ c ∈ owner, isBreakChar c = false)
    (hx : SN owner x) (hw : SN owner w') : SN owner (x ++ '\n' :: w') := by
  intro i
  by_cases hi : i ≤ x.length
  · have hd : (x ++ '\n' :: w').drop i = x.drop i ++ '\n' :: w' := by
      rw [List.drop_append_eq_append_drop]
      have : i - x.length = 0 := by omega
      rw [this]
      simp
    rw [hd]
    exact matchAt_none_append_nl hown (hx i)
  · have hd : (x ++ '\n' :: w').drop i = w'.drop (i - x.length - 1) := by
      rw [List.drop_append_eq_append_drop]
      have h1 : x.drop i = [] := by
        apply List.drop_eq_nil_of_le
        omega
      rw [h1]
      have h2 : i - x.length = (i - x.length - 1) + 1 := by omega
      rw [h2]
      simp
    rw [hd]
    exact hw (i - x.length - 1)

theorem SN_joinNL {owner : List Char} {ls : List (List Char)}
    (hown : ∀ c ∈ owner, isBreakChar c = false)
    (h : ∀ l ∈ ls, SN owner l) : SN owner (joinNL ls) := by
  induction ls with
  | nil =>
    intro i
    simp [copMatchAt_nil, joinNL]
  | cons l ls ih =>
    cases ls with
    | nil =>
      show SN owner (joinNL [l])
      simp only [joinNL]
      exact h l (by simp)
    | cons l2 ls' =>
      show SN owner (l ++ '\n' :: joinNL (l2 :: ls'))
      apply SN_of_parts_nl hown (h l (by simp))
      apply ih
      intro x hx
      exact h x (by simp [hx])

/-- Prefix and suffix glue of `joinNL` around a distinguished line. -/
def NLpre (P : List (List Char)) : List Char :=
  if P.isEmpty then [] else joinNL P ++ ['\n']

def NLpost (S : List (List Char)) : List Char :=
  if S.isEmpty then [] else '\n' :: joinNL S

theorem joinNL_decomp (P : List (List Char)) (l : List Char)
    (S : List (List Char)) :
    joinNL (P ++ l :: S) = NLpre P ++ (l ++ NLpost S) := by
  induction P with
  | nil =>
    simp only [List.nil_append, NLpre, List.isEmpty_nil, if_pos]
    cases S with
    | nil => simp [joinNL, NLpost]
    | cons s S' => simp [joinNL, NLpost]
  | cons p P' ih =>
    cases P' with
    | nil =>
      simp only [List.cons_append, List.nil_append]
      show p ++ '\n' :: joinNL (l :: S) = NLpre [p] ++ (l ++ NLpost S)
      simp only [NLpre, List.isEmpty_cons, joinNL]
      cases S with
      | nil => simp [joinNL, NLpost]
      | cons s S' => simp [joinNL, NLpost]
    | cons p2 P'' =>
      show p ++ '\n' :: joinNL ((p2 :: P'') ++ l :: S) = NLpre (p :: p2 :: P'') ++ (l ++ NLpost S)
      rw [ih]
      simp only [NLpre, List.isEmpty_cons, if_neg]
      show p ++ '\n' :: (NLpre (p2 :: P'') ++ (l ++ NLpost S)) =
        (joinNL (p :: p2 :: P'') ++ ['\n']) ++ (l ++ NLpost S)
      simp only [NLpre, List.isEmpty_cons]
      show p ++ '\n' :: ((joinNL (p2 :: P'') ++ ['\n']) ++ (l ++ NLpost S)) =
        (joinNL (p :: p2 :: P'') ++ ['\n']) ++ (l ++ NLpost S)
      show p ++ '\n' :: ((joinNL (p2 :: P'') ++ ['\n']) ++ (l ++ NLpost S)) =
        ((p ++ '\n' :: joinNL (p2 :: P'')) ++ ['\n']) ++ (l ++ NLpost S)
      simp

theorem drop_append_nl_le {a z : List Char} {i : Nat} (h : i ≤ a.length) :
    (a ++ '\n' :: z).drop i = a.drop i ++ '\n' :: z := by
  rw [List.drop_append_eq_append_drop]
  have hz : i - a.length = 0 := by omega
  rw [hz]
  simp

theorem drop_append_nl_gt {a z : List Char} {i : Nat} (h : a.length < i) :
    (a ++ '\n' :: z).drop i = z.drop (i - a.length - 1) := by
  rw [List.drop_append_eq_append_drop]
  rw [List.drop_eq_nil_of_le (by omega)]
  simp only [List.nil_append]
  have hz : i - a.length = (i - a.length - 1) + 1 := by omega
  rw [hz]
  simp

theorem lt_length_of_matchAt {owner s : List Char} {j : Nat}
    {v : Nat × Option Nat × List Char}
    (h : copMatchAt owner (s.drop j) = some v) : j < s.length := by
  by_contra hge
  push_neg at hge
  rw [List.drop_eq_nil_of_le hge, copMatchAt_nil] at h
  exact Option.noConfusion h

theorem SN_line_of_joinNL {owner l : List Char} {ls : List (List Char)}
    (_hown : ∀ c ∈ owner, isBreakChar c = false)
    (h : SN owner (joinNL ls)) (hl : l ∈ ls) : SN owner l := by
  obtain ⟨P, S, rfl⟩ := List.append_of_mem hl
  rw [joinNL_decomp] at h
  intro j
  by_cases hj : j ≤ l.length
  · cases hm : copMatchAt owner (l.drop j) with
    | none => rfl
    | some v =>
      obtain ⟨y1, oy2, rest⟩ := v
      exfalso
      have h2 : copMatchAt owner (l.drop j ++ NLpost S) =
          some (y1, oy2, rest ++ NLpost S) := copMatchAt_append hm
      have h3 := h ((NLpre P).length + j)
      rw [List.drop_append_eq_append_drop] at h3
      rw [List.drop_eq_nil_of_le (by omega)] at h3
      have hz : (NLpre P).length + j - (NLpre P).length = j := by omega
      rw [hz] at h3
      rw [List.drop_append_eq_append_drop] at h3
      have hz2 : j - l.length = 0 := by omega
      rw [hz2] at h3
      simp only [List.drop_zero, List.nil_append] at h3
      rw [h2] at h3
      exact Option.noConfusion h3
  · rw [List.drop_eq_nil_of_le (by omega), copMatchAt_nil]

theorem copSearch_skip_line {owner a z : List Char} {p y1 : Nat}
    {oy2 : Option Nat} {len : Nat}
    (hown : ∀ c ∈ owner, isBreakChar c = false) (ha : SN owner a)
    (hz : copSearch owner z = some (p, y1, oy2, len)) :
    copSearch owner (a ++ '\n' :: z) = some (a.length + 1 + p, y1, oy2, len) := by
  obtain ⟨rest, hm, hlen, hmin⟩ := copSearch_some_spec hz
  have hdrop : ∀ k, (a ++ '\n' :: z).drop (a.length + 1 + k) = z.drop k := by
    intro k
    rw [drop_append_nl_gt (by omega)]
    congr 1
    omega
  have h1 : copMatchAt owner ((a ++ '\n' :: z).drop (a.length + 1 + p)) =
      some (y1, oy2, rest) := by
    rw [hdrop]
    exact hm
  have h2 : ∀ i, i < a.length + 1 + p →
      copMatchAt owner ((a ++ '\n' :: z).drop i) = none := by
    intro i hi
    by_cases hia : i ≤ a.length
    · rw [drop_append_nl_le hia]
      exact matchAt_none_append_nl hown (ha i)
    · rw [drop_append_nl_gt (by omega)]
      exact hmin _ (by omega)
  calc copSearch owner (a ++ '\n' :: z)
      = some (a.length + 1 + p, y1, oy2,
          ((a ++ '\n' :: z).drop (a.length + 1 + p)).length - rest.length) :=
        copSearch_at h1 h2
    _ = some (a.length + 1 + p, y1, oy2, len) := by
        rw [hdrop p, ← hlen]

theorem joinNL_cons_ne_nil {l : List Char} {ls : List (List Char)}
    (h : ls ≠ []) : joinNL (l :: ls) = l ++ '\n' :: joinNL ls := by
  cases ls with
  | nil => exact absurd rfl h
  | cons l2 ls' => rfl

theorem copSearch_joinNL_fwd {owner l0 : List Char} {L1 L2 : List (List Char)}
    {j y1 : Nat} {oy2 : Option Nat} {rest : List Char}
    (hown : ∀ c ∈ owner, isBreakChar c = false)
    (h1 : ∀ l ∈ L1, SN owner l)
    (hj : copMatchAt owner (l0.drop j) = some (y1, oy2, rest))
    (hmin : ∀ i, i < j → copMatchAt owner (l0.drop i) = none) :
    ∃ p len, copSearch owner (joinNL (L1 ++ l0 :: L2)) = some (p, y1, oy2, len) := by
  induction L1 with
  | nil =>
    have hjl : j < l0.length := lt_length_of_matchAt hj
    cases L2 with
    | nil =>
      refine ⟨j, (l0.drop j).length - rest.length, ?_⟩
      show copSearch owner (joinNL [l0]) = _
      simp only [joinNL]
      exact copSearch_at hj hmin
    | cons l2 L2' =>
      refine ⟨j, ((l0 ++ '\n' :: joinNL (l2 :: L2')).drop j).length -
        (rest ++ '\n' :: joinNL (l2 :: L2')).length, ?_⟩
      show copSearch owner (l0 ++ '\n' :: joinNL (l2 :: L2')) =
        some (j, y1, oy2, ((l0 ++ '\n' :: joinNL (l2 :: L2')).drop j).length -
          (rest ++ '\n' :: joinNL (l2 :: L2')).length)
      apply copSearch_at
      · rw [drop_append_nl_le (by omega)]
        exact copMatchAt_append hj
      · intro i hi
        rw [drop_append_nl_le (by omega)]
        exact matchAt_none_append_nl hown (hmin i hi)
  | cons a L1' ih =>
    obtain ⟨p, len, hp⟩ := ih (fun l hl => h1 l (by simp [hl]))
    refine ⟨a.length + 1 + p, len, ?_⟩
    rw [List.cons_append, joinNL_cons_ne_nil (by simp)]
    exact copSearch_skip_line hown (h1 a (by simp)) hp

theorem copSearch_joinNL_inv {owner : List Char} {ls : List (List Char)}
    {p y1 : Nat} {oy2 : Option Nat} {len : Nat}
    (hown : ∀ c ∈ owner, isBreakChar c = false)
    (h : copSearch owner (joinNL ls) = some (p, y1, oy2, len)) :
    ∃ L1 l0 L2 j rest, ls = L1 ++ l0 :: L2 ∧ (∀ l ∈ L1, SN owner l) ∧
      copMatchAt owner (l0.drop j) = some (y1, oy2, rest) ∧
      (∀ i, i < j → copMatchAt owner (l0.drop i) = none) := by
  induction ls generalizing p len with
  | nil =>
    have h0 : copSearch owner (joinNL []) = none := rfl
    rw [h0] at h
    exact Option.noConfusion h
  | cons l ls' ih =>
    obtain ⟨rest, hm, hlen, hmin⟩ := copSearch_some_spec h
    cases ls' with
    | nil =>
      refine ⟨[], l, [], p, rest, rfl, by simp, ?_, ?_⟩
      · have : joinNL [l] = l := by simp [joinNL]
        rw [this] at hm
        exact hm
      · intro i hi
        have : joinNL [l] = l := by simp [joinNL]
        rw [this] at hmin
        exact hmin i hi
    | cons l2 ls'' =>
      have hje : joinNL (l :: l2 :: ls'') = l ++ '\n' :: joinNL (l2 :: ls'') := rfl
      rw [hje] at hm hmin
      by_cases hp : p ≤ l.length
      · rw [drop_append_nl_le hp] at hm
        obtain ⟨rest', hm', _⟩ := copMatchAt_of_append_nl hown hm
        refine ⟨[], l, l2 :: ls'', p, rest', rfl, by simp, hm', ?_⟩
        intro i hi
        cases hmi : copMatchAt owner (l.drop i) with
        | none => rfl
        | some v =>
          obtain ⟨y1v, oy2v, restv⟩ := v
          exfalso
          have h2 := copMatchAt_append (z := '\n' :: joinNL (l2 :: ls'')) hmi
          have h3 := hmin i (by omega)
          rw [drop_append_nl_le (by omega)] at h3
          rw [h2] at h3
          exact Option.noConfusion h3
      · push_neg at hp
        rw [drop_append_nl_gt hp] at hm
        have hminR : ∀ i, i < p - l.length - 1 →
            copMatchAt owner ((joinNL (l2 :: ls'')).drop i) = none := by
          intro i hi
          have h3 := hmin (l.length + 1 + i) (by omega)
          rw [drop_append_nl_gt (by omega)] at h3
          have hz : l.length + 1 + i - l.length - 1 = i := by omega
          rw [hz] at h3
          exact h3
        have hsearch := copSearch_at hm hminR
        obtain ⟨L1, l0, L2, j, rest2, hls, hSN, hmm, hminn⟩ := ih hsearch
        refine ⟨l :: L1, l0, L2, j, rest2, by rw [hls, List.cons_append], ?_, hmm, hminn⟩
        intro x hx
        rcases List.mem_cons.1 hx with rfl | hx'
        · intro i
          by_cases hil : i ≤ x.length
          · cases hmi : copMatchAt owner (x.drop i) with
            | none => rfl
            | some v =>
              obtain ⟨y1v, oy2v, restv⟩ := v
              exfalso
              have h2 := copMatchAt_append (z := '\n' :: joinNL (l2 :: ls'')) hmi
              have h3 := hmin i (by omega)
              rw [drop_append_nl_le (by omega)] at h3
              rw [h2] at h3
              exact Option.noConfusion h3
          · rw [List.drop_eq_nil_of_le (by omega), copMatchAt_nil]
        · exact hSN x hx'

/-! ### Lines of tame content -/

/-- All characters of a line are line-break free. -/
def cleanLine (l : List Char) : Prop := ∀ c ∈ l, isBreakChar c = false

theorem tame_cons {c : Char} {s : List Char} (h : contentTame (c :: s) = true) :
    contentTame s = true ∧ (isBreakChar c = false ∨ c = '\n') := by
  simp only [contentTame, List.all_cons, Bool.and_eq_true] at h
  obtain ⟨hc, hs⟩ := h
  refine ⟨hs, ?_⟩
  rcases Bool.or_eq_true_iff.1 hc with hc1 | hc1
  · left
    simp only [Bool.not_eq_true'] at hc1
    exact hc1
  · right
    simpa using hc1

theorem splitLinesF_fuel : ∀ n s f1 f2, s.length ≤ n → s.length ≤ f1 →
    s.length ≤ f2 → splitLinesF f1 s = splitLinesF f2 s := by
  intro n
  induction n with
  | zero =>
    intro s f1 f2 hn _ _
    have hs : s = [] := by
      cases s with
      | nil => rfl
      | cons c t => simp at hn
    subst hs
    cases f1 <;> cases f2 <;> rfl
  | succ n ih =>
    intro s f1 f2 hn h1 h2
    cases s with
    | nil => cases f1 <;> cases f2 <;> rfl
    | cons c t =>
      match f1, f2, h1, h2 with
      | g1 + 1, g2 + 1, h1, h2 =>
        rw [splitLinesF, splitLinesF]
        simp only [List.length_cons] at hn h1 h2
        by_cases hr : c = '\r'
        · rw [if_pos hr, if_pos hr]
          congr 1
          apply ih
          · by_cases hh : t.head? = some '\n'
            · rw [if_pos hh]
              have := List.length_tail t
              omega
            · rw [if_neg hh]
              omega
          · by_cases hh : t.head? = some '\n'
            · rw [if_pos hh]
              have := List.length_tail t
              omega
            · rw [if_neg hh]
              omega
          · by_cases hh : t.head? = some '\n'
            · rw [if_pos hh]
              have := List.length_tail t
              omega
            · rw [if_neg hh]
              omega
        · rw [if_neg hr, if_neg hr]
          by_cases hb : isBreakChar c = true
          · rw [if_pos hb, if_pos hb]
            congr 1
            exact ih t g1 g2 (by omega) (by omega) (by omega)
          · rw [if_neg hb, if_neg hb]
            rw [ih t g1 g2 (by omega) (by omega) (by omega)]

theorem splitLinesF_eq {s : List Char} {f : Nat} (h : s.length ≤ f) :
    splitLinesF f s = splitLines s :=
  splitLinesF_fuel s.length s f s.length (le_refl _) h (le_refl _)

theorem splitLines_cons_nl (s : List Char) :
    splitLines ('\n' :: s) = [] :: splitLines s := by
  show splitLinesF (s.length + 1) ('\n' :: s) = _
  rw [splitLinesF, if_neg (by decide), if_pos (by decide)]
  rw [splitLinesF_eq (le_refl _)]

theorem splitLines_cons_nonbreak {c : Char} {s : List Char}
    (h : isBreakChar c = false) :
    splitLines (c :: s) =
      (match splitLines s with
       | [] => [[c]]
       | l :: ls => (c :: l) :: ls) := by
  have hc : c ≠ '\r' := by
    intro he
    subst he
    simp [isBreakChar] at h
  show splitLinesF (s.length + 1) (c :: s) = _
  rw [splitLinesF, if_neg hc, if_neg (by rw [h]; exact Bool.false_ne_true)]
  rw [splitLinesF_eq (le_refl _)]

theorem splitLines_ne_nil {s : List Char} (h : s ≠ []) : splitLines s ≠ [] := by
  cases s with
  | nil => exact absurd rfl h
  | cons c t =>
    show splitLinesF (t.length + 1) (c :: t) ≠ []
    rw [splitLinesF]
    split
    · exact List.cons_ne_nil _ _
    · split
      · exact List.cons_ne_nil _ _
      · split
        · exact List.cons_ne_nil _ _
        · exact List.cons_ne_nil _ _

theorem lines_clean_tame {s : List Char} (ht : contentTame s = true) :
    ∀ l ∈ splitLines s, cleanLine l := by
  induction s with
  | nil =>
    intro l hl
    rw [show splitLines [] = [] from rfl] at hl
    simp at hl
  | cons c t ih =>
    obtain ⟨ht2, hc⟩ := tame_cons ht
    rcases hc with hc | rfl
    · rw [splitLines_cons_nonbreak hc]
      cases hsp : splitLines t with
      | nil =>
        intro l hl
        simp only [List.mem_singleton] at hl
        subst hl
        intro x hx
        simp only [List.mem_singleton] at hx
        subst hx
        exact hc
      | cons l0 ls0 =>
        intro l hl
        simp only [List.mem_cons] at hl
        rcases hl with rfl | hl
        · intro x hx
          rcases List.mem_cons.1 hx with rfl | hx'
          · exact hc
          · exact ih ht2 l0 (by rw [hsp]; simp) x hx'
        · exact ih ht2 l (by rw [hsp]; simp [hl])
    · rw [splitLines_cons_nl]
      intro l hl
      rcases List.mem_cons.1 hl with rfl | hl'
      · intro x hx
        simp at hx
      · exact ih ht2 l hl'

theorem splitLines_clean_cons {l b : List Char} (hl : cleanLine l) :
    splitLines (l ++ '\n' :: b) = l :: splitLines b := by
  induction l with
  | nil => exact splitLines_cons_nl b
  | cons c l' ih =>
    have hc : isBreakChar c = false := hl c (by simp)
    have hl' : cleanLine l' := fun x hx => hl x (by simp [hx])
    rw [List.cons_append, splitLines_cons_nonbreak hc, ih hl']

theorem splitLines_clean_single {l : List Char} (hl : cleanLine l) (hne : l ≠ []) :
    splitLines l = [l] := by
  induction l with
  | nil => exact absurd rfl hne
  | cons c l' ih =>
    have hc : isBreakChar c = false := hl c (by simp)
    have hl' : cleanLine l' := fun x hx => hl x (by simp [hx])
    rw [splitLines_cons_nonbreak hc]
    cases hl'' : l' with
    | nil => rfl
    | cons d l'' =>
      rw [← hl'']
      rw [ih hl' (by rw [hl'']; exact List.cons_ne_nil _ _)]

/-- Reconstruction of tame content from its lines. -/
theorem tame_reconstruct {s : List Char} (ht : contentTame s = true) :
    ∃ t, s = joinNL (splitLines s) ++ t ∧ (t = [] ∨ t = ['\n']) := by
  induction s with
  | nil => exact ⟨[], rfl, Or.inl rfl⟩
  | cons c s' ih =>
    obtain ⟨ht2, hc⟩ := tame_cons ht
    obtain ⟨t, hrec, hto⟩ := ih ht2
    rcases hc with hc | rfl
    · rw [splitLines_cons_nonbreak hc]
      cases hsp : splitLines s' with
      | nil =>
        have hs' : s' = [] := by
          by_contra hne
          exact splitLines_ne_nil hne hsp
        subst hs'
        exact ⟨[], by simp [joinNL], Or.inl rfl⟩
      | cons l0 ls0 =>
        refine ⟨t, ?_, hto⟩
        rw [hsp] at hrec
        have hj : joinNL ((c :: l0) :: ls0) = c :: joinNL (l0 :: ls0) := by
          cases ls0 with
          | nil => rfl
          | cons x xs => rfl
        rw [hj]
        rw [List.cons_append, ← hrec]
    · rw [splitLines_cons_nl]
      cases hsp : splitLines s' with
      | nil =>
        have hs' : s' = [] := by
          by_contra hne
          exact splitLines_ne_nil hne hsp
        subst hs'
        exact ⟨['\n'], by simp [joinNL], Or.inr rfl⟩
      | cons l0 ls0 =>
        refine ⟨t, ?_, hto⟩
        rw [hsp] at hrec
        have hj : joinNL ([] :: l0 :: ls0) = '\n' :: joinNL (l0 :: ls0) := rfl
        rw [hj, List.cons_append, ← hrec]

/-- `splitLines` after a block of newline-terminated clean lines. -/
theorem splitLines_NLpre {P : List (List Char)} {W : List Char}
    (hP : ∀ l ∈ P, cleanLine l) :
    splitLines (NLpre P ++ W) = P ++ splitLines W := by
  induction P with
  | nil => simp [NLpre]
  | cons p P' ih =>
    have hp : cleanLine p := hP p (by simp)
    cases P' with
    | nil =>
      show splitLines ((joinNL [p] ++ ['\n']) ++ W) = [p] ++ splitLines W
      have : (joinNL [p] ++ ['\n']) ++ W = p ++ '\n' :: W := by simp [joinNL]
      rw [this, splitLines_clean_cons hp]
      rfl
    | cons p2 P'' =>
      have h1 : NLpre (p :: p2 :: P'') ++ W = p ++ '\n' :: (NLpre (p2 :: P'') ++ W) := by
        show (joinNL (p :: p2 :: P'') ++ ['\n']) ++ W = _
        rw [joinNL_cons_ne_nil (List.cons_ne_nil _ _)]
        show ((p ++ '\n' :: joinNL (p2 :: P'')) ++ ['\n']) ++ W = _
        simp [NLpre]
      rw [h1, splitLines_clean_cons hp, ih (fun l hl => hP l (by simp [hl]))]
      rfl

/-! ### headLines structure -/

theorem headLines_prefix (ls : List (List Char)) :
    ∃ post, ls = headLines ls ++ post := by
  induction ls with
  | nil => exact ⟨[], rfl⟩
  | cons l ls' ih =>
    by_cases h : startsAlpha l = true
    · refine ⟨ls', ?_⟩
      simp [headLines, h]
    · obtain ⟨post, hpost⟩ := ih
      refine ⟨post, ?_⟩
      rw [headLines, if_neg h]
      conv_lhs => rw [hpost]
      rw [List.cons_append]

theorem headLines_append_nonalpha {A B : List (List Char)}
    (h : ∀ l ∈ A, startsAlpha l = false) :
    headLines (A ++ B) = A ++ headLines B := by
  induction A with
  | nil => rfl
  | cons a A' ih =>
    have ha : startsAlpha a = false := h a (by simp)
    rw [List.cons_append, headLines, ha]
    simp only [Bool.false_eq_true, if_neg (by exact fun h => h)]
    rw [ih (fun l hl => h l (by simp [hl]))]
    rfl

theorem headLines_before_nonalpha {ls H1 H2 : List (List Char)} {l0 : List Char}
    (h : headLines ls = H1 ++ l0 :: H2) :
    ∀ l ∈ H1, startsAlpha l = false := by
  induction ls generalizing H1 with
  | nil =>
    intro l hl
    exfalso
    have : ([] : List (List Char)) = H1 ++ l0 :: H2 := h
    exact absurd this.symm (by simp)
  | cons a ls' ih =>
    intro l hl
    rw [headLines] at h
    by_cases ha : startsAlpha a = true
    · rw [if_pos ha] at h
      cases H1 with
      | nil => simp at hl
      | cons x H1' =>
        exfalso
        have := List.cons.inj h
        have h2 : H1' ++ l0 :: H2 = [] := this.2.symm
        exact absurd h2 (by simp)
    · rw [if_neg ha] at h
      cases H1 with
      | nil => simp at hl
      | cons x H1' =>
        have := List.cons.inj h
        rcases List.mem_cons.1 hl with rfl | hl'
        · rw [← this.1]
          exact Bool.not_eq_true _ ▸ ha
        · exact ih this.2 l hl'

/-! ### `str.replace` lemmas -/

theorem replaceAllF_fuel : ∀ n s f1 f2 pat rep, s.length ≤ n → s.length ≤ f1 →
    s.length ≤ f2 → replaceAllF f1 s pat rep = replaceAllF f2 s pat rep := by
  intro n
  induction n with
  | zero =>
    intro s f1 f2 pat rep hn _ _
    have hs : s = [] := by
      cases s with
      | nil => rfl
      | cons c t => simp at hn
    subst hs
    cases pat with
    | nil => cases f1 <;> cases f2 <;> rfl
    | cons p0 pr => cases f1 <;> cases f2 <;> rfl
  | succ n ih =>
    intro s f1 f2 pat rep hn h1 h2
    cases pat with
    | nil => cases s <;> (cases f1 <;> cases f2 <;> rfl)
    | cons p0 pr =>
      cases s with
      | nil => cases f1 <;> cases f2 <;> rfl
      | cons c t =>
        match f1, f2, h1, h2 with
        | g1 + 1, g2 + 1, h1, h2 =>
          rw [replaceAllF, replaceAllF]
          simp only [List.length_cons] at hn h1 h2
          by_cases hp : isPre (p0 :: pr) (c :: t) = true
          · rw [if_pos hp, if_pos hp]
            congr 1
            apply ih
            · have : ((c :: t).drop (p0 :: pr).length).length ≤ t.length := by
                rw [List.length_drop]
                simp only [List.length_cons]
                omega
              omega
            · have : ((c :: t).drop (p0 :: pr).length).length ≤ t.length := by
                rw [List.length_drop]
                simp only [List.length_cons]
                omega
              omega
            · have : ((c :: t).drop (p0 :: pr).length).length ≤ t.length := by
                rw [List.length_drop]
                simp only [List.length_cons]
                omega
              omega
          · rw [if_neg hp, if_neg hp]
            congr 1
            exact ih t g1 g2 (p0 :: pr) rep (by omega) (by omega) (by omega)

theorem replaceAllF_eq {s pat rep : List Char} {f : Nat} (h : s.length ≤ f) :
    replaceAllF f s pat rep = replaceAll s pat rep :=
  replaceAllF_fuel s.length s f s.length pat rep (le_refl _) h (le_refl _)

theorem replaceAll_nil (pat rep : List Char) : replaceAll [] pat rep = [] := by
  cases pat <;> rfl

theorem replaceAll_cons_of_not_pre {c : Char} {rest pr rep : List Char} {p0 : Char}
    (h : isPre (p0 :: pr) (c :: rest) = false) :
    replaceAll (c :: rest) (p0 :: pr) rep = c :: replaceAll rest (p0 :: pr) rep := by
  show replaceAllF (rest.length + 1) (c :: rest) (p0 :: pr) rep = _
  rw [replaceAllF, if_neg (by rw [h]; exact Bool.false_ne_true)]
  rw [replaceAllF_eq (le_refl _)]

theorem replaceAll_cons_of_pre {c : Char} {rest pr rep : List Char} {p0 : Char}
    (h : isPre (p0 :: pr) (c :: rest) = true) :
    replaceAll (c :: rest) (p0 :: pr) rep =
      rep ++ replaceAll ((c :: rest).drop (p0 :: pr).length) (p0 :: pr) rep := by
  show replaceAllF (rest.length + 1) (c :: rest) (p0 :: pr) rep = _
  rw [replaceAllF, if_pos h]
  congr 1
  apply replaceAllF_eq
  rw [List.length_drop]
  simp only [List.length_cons]
  omega

theorem isPre_false_of_ne {p0 c : Char} {pr rest : List Char} (h : p0 ≠ c) :
    isPre (p0 :: pr) (c :: rest) = false := by
  rw [isPre]
  simp [h]

theorem replaceAll_exact {p z rep : List Char} (h : p ≠ []) :
    replaceAll (p ++ z) p rep = rep ++ replaceAll z p rep := by
  cases p with
  | nil => exact absurd rfl h
  | cons p0 pr =>
    have hpre : isPre (p0 :: pr) ((p0 :: pr) ++ z) = true :=
      (isPre_iff _ _).2 ⟨z, rfl⟩
    rw [List.cons_append, replaceAll_cons_of_pre (by rw [← List.cons_append]; exact hpre)]
    congr 2
    rw [← List.cons_append, List.drop_left]

theorem replaceAll_skip {A z pr rep : List Char} {p0 : Char}
    (hA : ∀ a ∈ A, a.isDigit = false) (hp : p0.isDigit = true) :
    replaceAll (A ++ z) (p0 :: pr) rep = A ++ replaceAll z (p0 :: pr) rep := by
  induction A with
  | nil => rfl
  | cons a A' ih =>
    have ha : a.isDigit = false := hA a (by simp)
    have hne : p0 ≠ a := by
      intro he
      rw [← he, hp] at ha
      exact absurd ha (by decide)
    rw [List.cons_append, replaceAll_cons_of_not_pre (isPre_false_of_ne hne)]
    rw [ih (fun x hx => hA x (by simp [hx]))]
    rfl

theorem replaceAll_no_digit {z pr rep : List Char} {p0 : Char}
    (hz : ∀ a ∈ z, a.isDigit = false) (hp : p0.isDigit = true) :
    replaceAll z (p0 :: pr) rep = z := by
  have h := @replaceAll_skip z [] pr rep p0 hz hp
  rw [List.append_nil] at h
  rw [h, replaceAll_nil, List.append_nil]

/-- A four-digit pattern different from `d1` does not start inside the
four-digit run `d1` followed by `, `. -/
theorem replaceAll_fourdig_skip {d1 d2 z rep : List Char}
    (h1 : fourDig d1) (h2 : fourDig d2) (hne : d1 ≠ d2) :
    replaceAll (d1 ++ ',' :: ' ' :: z) d2 rep =
      d1 ++ ',' :: ' ' :: replaceAll z d2 rep := by
  obtain ⟨hl1, hd1⟩ := h1
  obtain ⟨hl2, hd2⟩ := h2
  match d1, hl1, d2, hl2 with
  | [a, b, c, d], _, [e, f, g, h'], _ =>
    have hcomma : ¬(',' : Char).isDigit = true := by decide
    have hspace : ¬(' ' : Char).isDigit = true := by decide
    have k0 : isPre [e, f, g, h'] (a :: b :: c :: d :: ',' :: ' ' :: z) = false := by
      by_contra hk
      rw [Bool.not_eq_false] at hk
      obtain ⟨r, hr⟩ := (isPre_iff _ _).1 hk
      have h1 := List.cons.inj hr
      have h2 := List.cons.inj h1.2
      have h3 := List.cons.inj h2.2
      have h4 := List.cons.inj h3.2
      exact hne (by rw [h1.1, h2.1, h3.1, h4.1])
    have k1 : isPre [e, f, g, h'] (b :: c :: d :: ',' :: ' ' :: z) = false := by
      by_contra hk
      rw [Bool.not_eq_false] at hk
      obtain ⟨r, hr⟩ := (isPre_iff _ _).1 hk
      have h1 := List.cons.inj hr
      have h2 := List.cons.inj h1.2
      have h3 := List.cons.inj h2.2
      have h4 := List.cons.inj h3.2
      have : h' = ',' := h4.1.symm
      have hh := hd2 h' (by simp)
      rw [this] at hh
      exact hcomma hh
    have k2 : isPre [e, f, g, h'] (c :: d :: ',' :: ' ' :: z) = false := by
      by_contra hk
      rw [Bool.not_eq_false] at hk
      obtain ⟨r, hr⟩ := (isPre_iff _ _).1 hk
      have h1 := List.cons.inj hr
      have h2 := List.cons.inj h1.2
      have h3 := List.cons.inj h2.2
      have : g = ',' := h3.1.symm
      have hh := hd2 g (by simp)
      rw [this] at hh
      exact hcomma hh
    have k3 : isPre [e, f, g, h'] (d :: ',' :: ' ' :: z) = false := by
      by_contra hk
      rw [Bool.not_eq_false] at hk
      obtain ⟨r, hr⟩ := (isPre_iff _ _).1 hk
      have h1 := List.cons.inj hr
      have h2 := List.cons.inj h1.2
      have : f = ',' := h2.1.symm
      have hh := hd2 f (by simp)
      rw [this] at hh
      exact hcomma hh
    have k4 : isPre [e, f, g, h'] (',' :: ' ' :: z) = false := by
      apply isPre_false_of_ne
      intro he
      have hh := hd2 e (by simp)
      rw [he] at hh
      exact hcomma hh
    show replaceAll (a :: b :: c :: d :: ',' :: ' ' :: z) [e, f, g, h'] rep = _
    rw [replaceAll_cons_of_not_pre k0, replaceAll_cons_of_not_pre k1,
      replaceAll_cons_of_not_pre k2, replaceAll_cons_of_not_pre k3,
      replaceAll_cons_of_not_pre k4,
      replaceAll_cons_of_not_pre (by
        apply isPre_false_of_ne
        intro he
        have hh := hd2 e (by simp)
        rw [he] at hh
        exact hspace hh)]
    rfl

/-- Distribution of a single-character replace over append. -/
theorem replaceAll_single_append (a b rep : List Char) (c0 : Char) :
    replaceAll (a ++ b) [c0] rep =
      replaceAll a [c0] rep ++ replaceAll b [c0] rep := by
  induction a with
  | nil => rfl
  | cons x a' ih =>
    by_cases hx : c0 = x
    · subst hx
      have hpre1 : isPre [c0] (c0 :: (a' ++ b)) = true := by
        rw [isPre]
        simp [isPre]
      have hpre2 : isPre [c0] (c0 :: a') = true := by
        rw [isPre]
        simp [isPre]
      rw [List.cons_append, replaceAll_cons_of_pre hpre1,
        replaceAll_cons_of_pre hpre2]
      simp only [List.length_cons, List.length_nil, List.drop_succ_cons,
        List.drop_zero]
      rw [ih, List.append_assoc]
    · rw [List.cons_append, replaceAll_cons_of_not_pre (isPre_false_of_ne hx),
        replaceAll_cons_of_not_pre (isPre_false_of_ne hx), ih]
      rfl

theorem replaceAll_single_absent {s rep : List Char} {c0 : Char}
    (h : c0 ∉ s) : replaceAll s [c0] rep = s := by
  induction s with
  | nil => rfl
  | cons x s' ih =>
    have hx : c0 ≠ x := by
      intro he
      exact h (by rw [he]; simp)
    rw [replaceAll_cons_of_not_pre (isPre_false_of_ne hx),
      ih (fun hm => h (by simp [hm]))]

/-! ### `str.find` and the special-lines index -/

theorem findNL_none {s : List Char} (h : '\n' ∉ s) : findNL s = none := by
  induction s with
  | nil => rfl
  | cons c t ih =>
    have hc : ¬(c = '\n') := fun he => h (by rw [he]; simp)
    rw [findNL, if_neg hc, ih (fun hm => h (List.mem_cons_of_mem _ hm))]
    rfl

theorem findNL_append {l1 : List Char} (r : List Char) (h : '\n' ∉ l1) :
    findNL (l1 ++ '\n' :: r) = some l1.length := by
  induction l1 with
  | nil => rfl
  | cons c t ih =>
    have hc : ¬(c = '\n') := fun he => h (by rw [he]; simp)
    rw [List.cons_append, findNL, if_neg hc,
      ih (fun hm => h (List.mem_cons_of_mem _ hm))]
    rfl

theorem findNL_some_spec {s : List Char} {i : Nat} (h : findNL s = some i) :
    ∃ l1 r, s = l1 ++ '\n' :: r ∧ '\n' ∉ l1 ∧ l1.length = i := by
  induction s generalizing i with
  | nil => exact Option.noConfusion h
  | cons c t ih =>
    rw [findNL] at h
    by_cases hc : c = '\n'
    · rw [if_pos hc] at h
      exact ⟨[], t, by rw [hc]; rfl, by simp, by simpa using Option.some.inj h⟩
    · rw [if_neg hc] at h
      cases hf : findNL t with
      | none => rw [hf] at h; exact Option.noConfusion h
      | some j =>
        rw [hf, Option.map_some'] at h
        obtain ⟨l1, r, h1, h2, h3⟩ := ih hf
        refine ⟨c :: l1, r, by rw [List.cons_append, h1], ?_, ?_⟩
        · intro hm
          rcases List.mem_cons.1 hm with he | hm2
          · exact hc he.symm
          · exact h2 hm2
        · have hj : j + 1 = i := Option.some.inj h
          simp [h3, ← hj]

theorem take_append_len (a b : List Char) (k : Nat) :
    (a ++ b).take (a.length + k) = a ++ b.take k := by
  rw [List.take_append_eq_append_take, List.take_of_length_le (by omega)]
  congr 2
  omega

theorem drop_append_len (a b : List Char) (k : Nat) :
    (a ++ b).drop (a.length + k) = b.drop k := by
  rw [List.drop_append_eq_append_drop, List.drop_eq_nil_of_le (by omega),
    List.nil_append]
  congr 1
  omega

theorem take_append_nl_add (a z : List Char) (k : Nat) :
    (a ++ '\n' :: z).take (a.length + 1 + k) = a ++ '\n' :: z.take k := by
  have h1 : a.length + 1 + k = a.length + (k + 1) := by omega
  rw [h1, take_append_len]
  rfl

theorem drop_append_nl_add (a z : List Char) (k : Nat) :
    (a ++ '\n' :: z).drop (a.length + 1 + k) = z.drop k := by
  have h1 : a.length + 1 + k = a.length + (k + 1) := by omega
  rw [h1, drop_append_len]
  rfl

theorem take_append_nl (a z : List Char) :
    (a ++ '\n' :: z).take (a.length + 1) = a ++ ['\n'] := by
  have := take_append_nl_add a z 0
  simpa using this

theorem drop_append_nl_succ (a z : List Char) :
    (a ++ '\n' :: z).drop (a.length + 1) = z := by
  have h1 : a.length + 1 = a.length + (0 + 1) := by omega
  rw [h1, drop_append_len]
  rfl

theorem startsAlpha_cons (c : Char) (t : List Char) :
    startsAlpha (c :: t) = c.isAlpha := rfl

theorem encodingMatch_head {c : Char} {t : List Char}
    (h : encodingMatch (c :: t) = true) :
    c = ' ' ∨ c = '\t' ∨ c = '\x0c' ∨ c = '#' := by
  by_contra hc
  push_neg at hc
  obtain ⟨h1, h2, h3, h4⟩ := hc
  have hp : (decide (c = ' ') || decide (c = '\t') || decide (c = '\x0c')) = false := by
    simp [h1, h2, h3]
  unfold encodingMatch at h
  rw [List.dropWhile_cons, hp] at h
  simp only [Bool.false_eq_true, if_false] at h
  split at h
  · rename_i t2 heq
    exact h4 (List.cons.inj heq).1
  · exact Bool.noConfusion h

theorem startsAlpha_of_encoding {l1 : List Char}
    (h : encodingMatch (l1 ++ ['\n']) = true) : startsAlpha l1 = false := by
  cases l1 with
  | nil => rfl
  | cons c t =>
    rw [List.cons_append] at h
    rcases encodingMatch_head h with rfl | rfl | rfl | rfl <;>
      rw [startsAlpha_cons] <;> decide

theorem startsAlpha_of_shebang {l1 : List Char}
    (h : isPre "#!".data (l1 ++ ['\n']) = true) : startsAlpha l1 = false := by
  cases l1 with
  | nil => rfl
  | cons c t =>
    obtain ⟨r, hr⟩ := (isPre_iff _ _).1 h
    have hr2 : c :: (t ++ ['\n']) = '#' :: ('!' :: r) := hr
    rw [startsAlpha_cons, (List.cons.inj hr2).1]
    decide

theorem encodingMatch_nil : encodingMatch [] = false := rfl

theorem findNL_of_mem {s : List Char} (h : '\n' ∈ s) : findNL s ≠ none := by
  induction s with
  | nil => exact absurd h (by simp)
  | cons c t ih =>
    rw [findNL]
    by_cases hc : c = '\n'
    · rw [if_pos hc]; exact fun hx => Option.noConfusion hx
    · rw [if_neg hc]
      have hm2 : '\n' ∈ t := by
        rcases List.mem_cons.1 h with he | hm2
        · exact absurd he.symm hc
        · exact hm2
      cases hft : findNL t with
      | none => exact absurd hft (ih hm2)
      | some v => exact fun hx => Option.noConfusion hx

theorem getIndex_nonl {content : List Char} (h : '\n' ∉ content) :
    get_index_after_special_lines content = 0 := by
  unfold get_index_after_special_lines
  rw [findNL_none h]
  show get_index_aux content 0 = 0
  unfold get_index_aux
  rw [List.take_zero, if_neg (by decide)]

theorem getIndex_one {l1 r : List Char} (h1 : '\n' ∉ l1)
    (hsp : (isPre "#!".data (l1 ++ ['\n']) || encodingMatch (l1 ++ ['\n'])) = true)
    (h2 : ∀ l2 r2, r = l2 ++ '\n' :: r2 → '\n' ∉ l2 →
      encodingMatch (l2 ++ ['\n']) = false) :
    get_index_after_special_lines (l1 ++ '\n' :: r) = l1.length + 1 := by
  unfold get_index_after_special_lines
  rw [findNL_append r h1]
  show get_index_aux (l1 ++ '\n' :: r) (l1.length + 1) = l1.length + 1
  unfold get_index_aux
  rw [take_append_nl, if_pos hsp, drop_append_nl_succ]
  cases hf : findNL r with
  | none =>
    show get_index_snd (l1 ++ '\n' :: r) (l1.length + 1) (l1.length + 1) = _
    unfold get_index_snd
    rw [Nat.sub_self, List.take_zero, if_neg (by decide)]
  | some j =>
    show get_index_snd (l1 ++ '\n' :: r) (l1.length + 1) (l1.length + 1 + j + 1) = _
    obtain ⟨l2, r2, hr, hnl2, hlen⟩ := findNL_some_spec hf
    unfold get_index_snd
    rw [drop_append_nl_succ]
    have harith : l1.length + 1 + j + 1 - (l1.length + 1) = l2.length + 1 := by omega
    rw [harith, hr]
    have htake : (l2 ++ '\n' :: r2).take (l2.length + 1) = l2 ++ ['\n'] :=
      take_append_nl l2 r2
    rw [htake, if_neg ?_]
    intro hx
    rw [h2 l2 r2 hr hnl2] at hx
    exact Bool.noConfusion hx

theorem getIndex_two {l1 l2 : List Char} (r2 : List Char) (h1 : '\n' ∉ l1)
    (hsp : (isPre "#!".data (l1 ++ ['\n']) || encodingMatch (l1 ++ ['\n'])) = true)
    (h2 : '\n' ∉ l2) (henc : encodingMatch (l2 ++ ['\n']) = true) :
    get_index_after_special_lines (l1 ++ '\n' :: (l2 ++ '\n' :: r2)) =
      l1.length + 1 + (l2.length + 1) := by
  unfold get_index_after_special_lines
  rw [findNL_append (l2 ++ '\n' :: r2) h1]
  show get_index_aux (l1 ++ '\n' :: (l2 ++ '\n' :: r2)) (l1.length + 1) = _
  unfold get_index_aux
  rw [take_append_nl, if_pos hsp, drop_append_nl_succ, findNL_append r2 h2]
  show get_index_snd (l1 ++ '\n' :: (l2 ++ '\n' :: r2)) (l1.length + 1)
      (l1.length + 1 + l2.length + 1) = _
  unfold get_index_snd
  rw [drop_append_nl_succ]
  have harith : l1.length + 1 + l2.length + 1 - (l1.length + 1) = l2.length + 1 := by
    omega
  rw [harith, take_append_nl, if_pos henc]
  omega

theorem getIndex_cases (content : List Char) :
    get_index_after_special_lines content = 0 ∨
    (∃ l1 r, content = l1 ++ '\n' :: r ∧ '\n' ∉ l1 ∧ startsAlpha l1 = false ∧
      get_index_after_special_lines content = l1.length + 1) ∨
    (∃ l1 l2 r2, content = l1 ++ '\n' :: (l2 ++ '\n' :: r2) ∧ '\n' ∉ l1 ∧
      '\n' ∉ l2 ∧ startsAlpha l1 = false ∧ startsAlpha l2 = false ∧
      get_index_after_special_lines content =
        l1.length + 1 + (l2.length + 1)) := by
  cases hf : findNL content with
  | none =>
    left
    exact getIndex_nonl (fun hm => findNL_of_mem hm hf)
  | some i =>
    obtain ⟨l1, r, hc1, hnl1, _⟩ := findNL_some_spec hf
    by_cases hsp : (isPre "#!".data (l1 ++ ['\n']) ||
        encodingMatch (l1 ++ ['\n'])) = true
    · have halpha : startsAlpha l1 = false := by
        rcases Bool.or_eq_true_iff.1 hsp with hx | hx
        · exact startsAlpha_of_shebang hx
        · exact startsAlpha_of_encoding hx
      by_cases hrsplit : ∃ l2 r2, r = l2 ++ '\n' :: r2 ∧ '\n' ∉ l2 ∧
          encodingMatch (l2 ++ ['\n']) = true
      · obtain ⟨l2, r2, hr, hnl2, henc⟩ := hrsplit
        right; right
        refine ⟨l1, l2, r2, by rw [hc1, hr], hnl1, hnl2, halpha,
          startsAlpha_of_encoding henc, ?_⟩
        rw [hc1, hr]
        exact getIndex_two r2 hnl1 hsp hnl2 henc
      · right; left
        refine ⟨l1, r, hc1, hnl1, halpha, ?_⟩
        rw [hc1]
        apply getIndex_one hnl1 hsp
        intro l2 r2 hr hnl2
        by_contra hx
        rw [Bool.not_eq_false] at hx
        exact hrsplit ⟨l2, r2, hr, hnl2, hx⟩
    · left
      rw [hc1]
      unfold get_index_after_special_lines
      rw [findNL_append r hnl1]
      show get_index_aux (l1 ++ '\n' :: r) (l1.length + 1) = 0
      unfold get_index_aux
      rw [take_append_nl, if_neg hsp]

/-! ### Position lemmas for matches inside lines -/

theorem SN_of_no_C {owner l : List Char} (h : ∀ c ∈ l, c ≠ 'C') :
    SN owner l := by
  intro i
  cases hd : l.drop i with
  | nil => exact copMatchAt_nil owner
  | cons c t =>
    have hc : c ∈ l :=
      List.drop_subset i l (by rw [hd]; exact List.mem_cons_self c t)
    exact copMatchAt_not_C (h c hc)

theorem matchAt_none_in_prefix {owner A rest : List Char} {q : Nat}
    (hA : ∀ c ∈ A, c ≠ 'C') (hq : q < A.length) :
    copMatchAt owner ((A ++ rest).drop q) = none := by
  have hd : (A ++ rest).drop q = A.drop q ++ rest := by
    rw [List.drop_append_eq_append_drop]
    have h0 : q - A.length = 0 := by omega
    rw [h0]
    rfl
  rw [hd]
  cases hAd : A.drop q with
  | nil =>
    exfalso
    have := congrArg List.length hAd
    simp only [List.length_drop, List.length_nil] at this
    omega
  | cons c t =>
    have hc : c ∈ A :=
      List.drop_subset q A (by rw [hAd]; exact List.mem_cons_self c t)
    rw [List.cons_append]
    exact copMatchAt_not_C (hA c hc)

/-- Replacing the tail of a line after a position `q` cannot create a
match starting before the replacement point when the new tail starts
with `'C'` (and the original line had no match at `q`). -/
theorem matchAt_none_edited {owner α T R : List Char} {q : Nat}
    (hq : q < α.length)
    (hT : ∃ w, T = 'C' :: w)
    (hownC : ∀ c ∈ owner, c ≠ 'C')
    (horig : copMatchAt owner ((α ++ R).drop q) = none) :
    copMatchAt owner ((α ++ T).drop q) = none := by
  obtain ⟨w, hw⟩ := hT
  cases hmatch : copMatchAt owner ((α ++ T).drop q) with
  | none => rfl
  | some v =>
    exfalso
    obtain ⟨y1, oy2, rest⟩ := v
    obtain ⟨e1, e2, d1, opt, hs, hd1, _, _, hopt⟩ := copMatchAt_sound hmatch
    obtain ⟨ct, hct, hctC⟩ :=
      copFull_C hd1.2 (fun d2 hd2 => (hopt d2 hd2).2) hownC
    have hdq : (α ++ T).drop q = α.drop q ++ T := by
      rw [List.drop_append_eq_append_drop]
      have h0 : q - α.length = 0 := by omega
      rw [h0]
      rfl
    have hdqR : (α ++ R).drop q = α.drop q ++ R := by
      rw [List.drop_append_eq_append_drop]
      have h0 : q - α.length = 0 := by omega
      rw [h0]
      rfl
    have hlenA : (α.drop q).length = α.length - q := List.length_drop q α
    have hm5 : (α.drop q ++ T).take (copFull e1 e2 d1 opt owner).length =
        copFull e1 e2 d1 opt owner := by
      rw [← hdq, hs, List.take_left']
      rfl
    by_cases hcase : (copFull e1 e2 d1 opt owner).length ≤ (α.drop q).length
    · rw [List.take_append_eq_append_take,
        (show (copFull e1 e2 d1 opt owner).length - (α.drop q).length = 0 by
          omega), List.take_zero, List.append_nil] at hm5
      have hsplit : α.drop q = copFull e1 e2 d1 opt owner ++
          (α.drop q).drop (copFull e1 e2 d1 opt owner).length := by
        conv_lhs =>
          rw [← List.take_append_drop (copFull e1 e2 d1 opt owner).length
            (α.drop q)]
        rw [hm5]
      have hmA : copMatchAt owner ((α ++ R).drop q) =
          some (val4 d1, opt.map val4,
            (α.drop q).drop (copFull e1 e2 d1 opt owner).length ++ R) := by
        rw [hdqR]
        conv_lhs => rw [hsplit]
        rw [List.append_assoc]
        exact copMatchAt_complete e1 e2 _ hd1 hopt
      rw [horig] at hmA
      exact Option.noConfusion hmA
    · push_neg at hcase
      rw [List.take_append_eq_append_take,
        List.take_of_length_le (by omega)] at hm5
      rw [(show (copFull e1 e2 d1 opt owner).length - (α.drop q).length =
        ((copFull e1 e2 d1 opt owner).length - (α.drop q).length - 1) + 1 by
          omega), hw, List.take_succ_cons] at hm5
      cases hAd : α.drop q with
      | nil =>
        have := congrArg List.length hAd
        simp only [List.length_drop, List.length_nil] at this
        omega
      | cons a0 A2 =>
        rw [hAd, List.cons_append, hct] at hm5
        have hinj := List.cons.inj hm5
        apply hctC 'C' _ rfl
        rw [← hinj.2]
        simp

/-- The leftmost-search value on a string of the form
`NLpre L1 ++ (l0 ++ tail)` where every line of `L1` is match free, the
distinguished line `l0` has its leftmost match at `j`, and `tail` is
empty or starts with a newline. -/
theorem copSearch_localized {owner l0 tail : List Char} {L1 : List (List Char)}
    {j y1 : Nat} {oy2 : Option Nat} {rest0 : List Char}
    (hown : ∀ c ∈ owner, isBreakChar c = false)
    (hSN : ∀ l ∈ L1, SN owner l)
    (hj : copMatchAt owner (l0.drop j) = some (y1, oy2, rest0))
    (hmin : ∀ k, k < j → copMatchAt owner (l0.drop k) = none)
    (htail : tail = [] ∨ ∃ w, tail = '\n' :: w) :
    copSearch owner (NLpre L1 ++ (l0 ++ tail)) =
      some ((NLpre L1).length + j, y1, oy2,
        (l0.drop j).length - rest0.length) := by
  have hjl : j < l0.length := lt_length_of_matchAt hj
  have hdropj : (NLpre L1 ++ (l0 ++ tail)).drop ((NLpre L1).length + j) =
      l0.drop j ++ tail := by
    rw [drop_append_len]
    rw [List.drop_append_eq_append_drop]
    have h0 : j - l0.length = 0 := by omega
    rw [h0]
    rfl
  have hat : copMatchAt owner
      ((NLpre L1 ++ (l0 ++ tail)).drop ((NLpre L1).length + j)) =
      some (y1, oy2, rest0 ++ tail) := by
    rw [hdropj]
    exact copMatchAt_append hj
  have hnone_tail : ∀ k, k < j →
      copMatchAt owner ((l0 ++ tail).drop k) = none := by
    intro k hk
    have hdk : (l0 ++ tail).drop k = l0.drop k ++ tail := by
      rw [List.drop_append_eq_append_drop]
      have h0 : k - l0.length = 0 := by omega
      rw [h0]
      rfl
    rw [hdk]
    rcases htail with rfl | ⟨w, rfl⟩
    · rw [List.append_nil]
      exact hmin k hk
    · exact matchAt_none_append_nl hown (hmin k hk)
  have hmin2 : ∀ i, i < (NLpre L1).length + j →
      copMatchAt owner ((NLpre L1 ++ (l0 ++ tail)).drop i) = none := by
    intro i hi
    cases L1 with
    | nil =>
      have hz : NLpre ([] : List (List Char)) = [] := rfl
      rw [hz] at hi ⊢
      rw [List.nil_append]
      simp only [List.length_nil, Nat.zero_add] at hi
      exact hnone_tail i hi
    | cons p P =>
      have hz : NLpre (p :: P) = joinNL (p :: P) ++ ['\n'] := by
        rw [NLpre, if_neg]
        simp
      have hlen1 : (NLpre (p :: P)).length = (joinNL (p :: P)).length + 1 := by
        rw [hz]; simp
      have hform : NLpre (p :: P) ++ (l0 ++ tail) =
          joinNL (p :: P) ++ '\n' :: (l0 ++ tail) := by
        rw [hz]; simp
      rw [hform]
      by_cases hiJ : i ≤ (joinNL (p :: P)).length
      · rw [drop_append_nl_le hiJ]
        exact matchAt_none_append_nl hown (SN_joinNL hown hSN i)
      · push_neg at hiJ
        rw [drop_append_nl_gt hiJ]
        apply hnone_tail
        omega
  have hres := copSearch_at hat hmin2
  rw [hdropj] at hres
  obtain ⟨e1, e2, d1, opt, hs0, _, _, _, _⟩ := copMatchAt_sound hj
  have hrlen : rest0.length ≤ (l0.drop j).length := by
    rw [hs0]; simp
  have h4 : (l0.drop j ++ tail).length - (rest0 ++ tail).length =
      (l0.drop j).length - rest0.length := by
    simp only [List.length_append]
    omega
  rw [h4] at hres
  exact hres

theorem NLpre_cons (p : List Char) (P : List (List Char)) :
    NLpre (p :: P) = p ++ '\n' :: NLpre P := by
  cases P with
  | nil =>
    show joinNL [p] ++ ['\n'] = p ++ '\n' :: NLpre []
    simp [joinNL, NLpre]
  | cons q Q =>
    show joinNL (p :: q :: Q) ++ ['\n'] = p ++ '\n' :: NLpre (q :: Q)
    rw [joinNL_cons_ne_nil (List.cons_ne_nil _ _)]
    show (p ++ '\n' :: joinNL (q :: Q)) ++ ['\n'] =
      p ++ '\n' :: (joinNL (q :: Q) ++ ['\n'])
    simp

theorem NLpre_append (P Q : List (List Char)) :
    NLpre (P ++ Q) = NLpre P ++ NLpre Q := by
  induction P with
  | nil => rfl
  | cons p P ih =>
    rw [List.cons_append, NLpre_cons, NLpre_cons, ih]
    simp

theorem headLines_cons (l : List Char) (ls : List (List Char)) :
    ∃ H2, headLines (l :: ls) = l :: H2 := by
  by_cases h : startsAlpha l = true
  · exact ⟨[], by rw [headLines, if_pos h]⟩
  · exact ⟨headLines ls, by rw [headLines, if_neg h]⟩

theorem val4_decimal {n : Nat} (h1 : 1000 ≤ n) (h2 : n ≤ 9999) :
    val4 (decimal n) = n := by
  have hp := parse4_decimal h1 h2 []
  rw [List.append_nil] at hp
  rw [decimal_four h1 h2] at hp ⊢
  rw [parse4_complete (digitChar_isDigit (by omega)) (digitChar_isDigit (by omega))
    (digitChar_isDigit (by omega)) (digitChar_isDigit (by omega))] at hp
  have hv := congrArg Prod.fst (Option.some.inj hp)
  simp only at hv
  rw [val4_cons4]
  exact hv

/-! ### The wrapped copyright block as a list of lines -/

/-- The lines of the wrapped copyright block, per comment style. -/
def wrapLines (filename newCopyright : List Char) : List (List Char) :=
  let e := ending filename
  if HASH_ENDINGS.contains e then
    ["#".data, "# ".data ++ newCopyright, "#".data]
  else if DASH_ENDINGS.contains e then
    ["--".data, "-- ".data ++ newCopyright, "--".data]
  else if MD_ENDINGS.contains e then
    ["[//]: # (".data ++ mdEscape newCopyright ++ ")".data]
  else if STAR_ENDINGS.contains e then
    ["/*".data, " * ".data ++ newCopyright, " */".data]
  else []

theorem copyrightText_eq (curr : Nat) (owner : List Char) :
    copyrightText curr owner =
      copFull false false (decimal curr) none owner ++
        ". All rights reserved.".data := by
  simp only [copyrightText, copFull, bsl, optYears, Bool.false_eq_true, if_false,
    List.append_assoc, List.nil_append]
  rfl

theorem mdEscape_copyrightText {curr : Nat} {owner : List Char}
    (h1 : 1000 ≤ curr) (h2 : curr ≤ 9999)
    (hop : '(' ∉ owner) (hcp : ')' ∉ owner) :
    mdEscape (copyrightText curr owner) =
      copFull true true (decimal curr) none owner ++
        ". All rights reserved.".data := by
  have hd4 := decimal_four_digits h1 h2
  have hdnp : ∀ c0 : Char, c0.isDigit = false → c0 ∉ decimal curr := by
    intro c0 hc0 hmem
    rw [hd4.2 c0 hmem] at hc0
    exact Bool.noConfusion hc0
  have hct : copyrightText curr owner =
      "Copyright (c) ".data ++ (decimal curr ++ (" by ".data ++
        (owner ++ ". All rights reserved.".data))) := by
    simp [copyrightText, List.append_assoc]
  have hlit1 : replaceAll "Copyright (c) ".data ['('] ['\\', '('] =
      "Copyright \\(c) ".data := by decide
  have hlit2 : replaceAll "Copyright \\(c) ".data [')'] ['\\', ')'] =
      "Copyright \\(c\\) ".data := by decide
  have hinner : replaceAll (copyrightText curr owner) ['('] ['\\', '('] =
      "Copyright \\(c) ".data ++ (decimal curr ++ (" by ".data ++
        (owner ++ ". All rights reserved.".data))) := by
    rw [hct, replaceAll_single_append, replaceAll_single_append,
      replaceAll_single_append, replaceAll_single_append]
    rw [replaceAll_single_absent (hdnp '(' (by decide)),
      replaceAll_single_absent (s := " by ".data) (by decide),
      replaceAll_single_absent hop,
      replaceAll_single_absent (s := ". All rights reserved.".data) (by decide),
      hlit1]
  rw [mdEscape, hinner]
  rw [replaceAll_single_append, replaceAll_single_append,
    replaceAll_single_append, replaceAll_single_append]
  rw [replaceAll_single_absent (hdnp ')' (by decide)),
    replaceAll_single_absent (s := " by ".data) (by decide),
    replaceAll_single_absent hcp,
    replaceAll_single_absent (s := ". All rights reserved.".data) (by decide),
    hlit2]
  simp only [copFull, bsl, optYears, if_pos, List.append_assoc, List.nil_append]
  rfl

theorem wrap_eq_NLpre {filename : List Char} (nc : List Char)
    (h : recognizedExt (ending filename) = true) :
    wrap_copyright filename nc = NLpre (wrapLines filename nc) := by
  simp only [wrap_copyright, wrapLines]
  by_cases h1 : HASH_ENDINGS.contains (ending filename) = true
  · rw [if_pos h1, if_pos h1]
    show _ = NLpre ["#".data, "# ".data ++ nc, "#".data]
    rw [NLpre_cons, NLpre_cons, NLpre_cons]
    simp [NLpre, List.append_assoc]
  · rw [if_neg h1, if_neg h1]
    by_cases h2 : DASH_ENDINGS.contains (ending filename) = true
    · rw [if_pos h2, if_pos h2]
      rw [NLpre_cons, NLpre_cons, NLpre_cons]
      simp [NLpre, List.append_assoc]
    · rw [if_neg h2, if_neg h2]
      by_cases h3 : MD_ENDINGS.contains (ending filename) = true
      · rw [if_pos h3, if_pos h3]
        rw [NLpre_cons]
        simp [NLpre, List.append_assoc]
      · rw [if_neg h3, if_neg h3]
        by_cases h4 : STAR_ENDINGS.contains (ending filename) = true
        · rw [if_pos h4, if_pos h4]
          rw [NLpre_cons, NLpre_cons, NLpre_cons]
          simp [NLpre, List.append_assoc]
        · exfalso
          simp only [recognizedExt, Bool.or_eq_true] at h
          rcases h with ((hx | hx) | hx) | hx
          · exact h1 hx
          · exact h2 hx
          · exact h3 hx
          · exact h4 hx

theorem wrapLines_ne_nil {filename : List Char} (nc : List Char)
    (h : recognizedExt (ending filename) = true) :
    wrapLines filename nc ≠ [] := by
  simp only [wrapLines]
  by_cases h1 : HASH_ENDINGS.contains (ending filename) = true
  · rw [if_pos h1]; simp
  · rw [if_neg h1]
    by_cases h2 : DASH_ENDINGS.contains (ending filename) = true
    · rw [if_pos h2]; simp
    · rw [if_neg h2]
      by_cases h3 : MD_ENDINGS.contains (ending filename) = true
      · rw [if_pos h3]; simp
      · rw [if_neg h3]
        by_cases h4 : STAR_ENDINGS.contains (ending filename) = true
        · rw [if_pos h4]; simp
        · exfalso
          simp only [recognizedExt, Bool.or_eq_true] at h
          rcases h with ((hx | hx) | hx) | hx
          · exact h1 hx
          · exact h2 hx
          · exact h3 hx
          · exact h4 hx

theorem wrap_isEmpty_false {filename : List Char} (nc : List Char)
    (h : recognizedExt (ending filename) = true) :
    (wrap_copyright filename nc).isEmpty = false := by
  rw [wrap_eq_NLpre nc h]
  cases hw : wrapLines filename nc with
  | nil => exact absurd hw (wrapLines_ne_nil nc h)
  | cons a W =>
    rw [NLpre_cons]
    cases a with
    | nil => rfl
    | cons c t => rfl

/-- Structure of the wrapped block: one line carries the copyright,
shaped `A ++ copFull _ _ (decimal curr) none owner ++ B` with `A` free
of `'C'`; the lines before it are match free; every line is break free
and does not start with a letter. -/
theorem wrapLines_struct (filename owner : List Char) (curr : Nat)
    (hext : recognizedExt (ending filename) = true)
    (h1 : 1000 ≤ curr) (h2 : curr ≤ 9999)
    (ho : ownerOkB owner = true) :
    ∃ W1 A e1 e2 B W2,
      wrapLines filename (copyrightText curr owner) =
        W1 ++ (A ++ (copFull e1 e2 (decimal curr) none owner ++ B)) :: W2 ∧
      (∀ l ∈ W1, ∀ c ∈ l, c ≠ 'C') ∧
      (∀ c ∈ A, c ≠ 'C') ∧
      (∀ l ∈ wrapLines filename (copyrightText curr owner),
        startsAlpha l = false ∧ cleanLine l) := by
  have hown := ownerOk_chars ho
  have hd4 := decimal_four_digits h1 h2
  have hcop_clean : cleanLine (copFull false false (decimal curr) none owner) :=
    copFull_no_break hd4.2 (by intro d2 hd2; exact absurd hd2 (by simp))
      (fun c hc => (hown c hc).1)
  have hcop_clean2 : cleanLine (copFull true true (decimal curr) none owner) :=
    copFull_no_break hd4.2 (by intro d2 hd2; exact absurd hd2 (by simp))
      (fun c hc => (hown c hc).1)
  have htail_clean : cleanLine ". All rights reserved.".data := by
    intro c hc
    fin_cases hc <;> decide
  simp only [wrapLines]
  by_cases hc1 : HASH_ENDINGS.contains (ending filename) = true
  · rw [if_pos hc1]
    refine ⟨["#".data], "# ".data, false, false, ". All rights reserved.".data,
      ["#".data], ?_, ?_, ?_, ?_⟩
    · rw [copyrightText_eq]
      rfl
    · intro l hl c hc
      simp only [List.mem_singleton] at hl
      subst hl
      fin_cases hc <;> decide
    · intro c hc
      fin_cases hc <;> decide
    · intro l hl
      simp only [List.mem_cons, List.not_mem_nil, or_false] at hl
      rcases hl with rfl | rfl | rfl
      · exact ⟨by decide, by intro c hc; fin_cases hc <;> decide⟩
      · refine ⟨rfl, ?_⟩
        intro c hc
        rw [copyrightText_eq] at hc
        rcases List.mem_append.1 hc with hc | hc
        · fin_cases hc <;> decide
        · rcases List.mem_append.1 hc with hc | hc
          · exact hcop_clean c hc
          · exact htail_clean c hc
      · exact ⟨by decide, by intro c hc; fin_cases hc <;> decide⟩
  · rw [if_neg hc1]
    by_cases hc2 : DASH_ENDINGS.contains (ending filename) = true
    · rw [if_pos hc2]
      refine ⟨["--".data], "-- ".data, false, false,
        ". All rights reserved.".data, ["--".data], ?_, ?_, ?_, ?_⟩
      · rw [copyrightText_eq]
        rfl
      · intro l hl c hc
        simp only [List.mem_singleton] at hl
        subst hl
        fin_cases hc <;> decide
      · intro c hc
        fin_cases hc <;> decide
      · intro l hl
        simp only [List.mem_cons, List.not_mem_nil, or_false] at hl
        rcases hl with rfl | rfl | rfl
        · exact ⟨by decide, by intro c hc; fin_cases hc <;> decide⟩
        · refine ⟨rfl, ?_⟩
          intro c hc
          rw [copyrightText_eq] at hc
          rcases List.mem_append.1 hc with hc | hc
          · fin_cases hc <;> decide
          · rcases List.mem_append.1 hc with hc | hc
            · exact hcop_clean c hc
            · exact htail_clean c hc
        · exact ⟨by decide, by intro c hc; fin_cases hc <;> decide⟩
    · rw [if_neg hc2]
      by_cases hc3 : MD_ENDINGS.contains (ending filename) = true
      · rw [if_pos hc3]
        have hop : '(' ∉ owner := fun hm => (hown _ hm).2.2.2.1 rfl
        have hcp : ')' ∉ owner := fun hm => (hown _ hm).2.2.2.2.1 rfl
        have hesc := mdEscape_copyrightText h1 h2 hop hcp
        refine ⟨[], "[//]: # (".data, true, true,
          ". All rights reserved.".data ++ ")".data, [], ?_, ?_, ?_, ?_⟩
        · rw [hesc]
          simp [List.append_assoc]
        · intro l hl
          exact absurd hl (List.not_mem_nil l)
        · intro c hc
          fin_cases hc <;> decide
        · intro l hl
          simp only [List.mem_singleton] at hl
          subst hl
          refine ⟨rfl, ?_⟩
          intro c hc
          rw [hesc] at hc
          simp only [List.append_assoc] at hc
          rcases List.mem_append.1 hc with hc | hc
          · fin_cases hc <;> decide
          · rcases List.mem_append.1 hc with hc | hc
            · exact hcop_clean2 c hc
            · rcases List.mem_append.1 hc with hc | hc
              · exact htail_clean c hc
              · fin_cases hc <;> decide
      · rw [if_neg hc3]
        by_cases hc4 : STAR_ENDINGS.contains (ending filename) = true
        · rw [if_pos hc4]
          refine ⟨["/*".data], " * ".data, false, false,
            ". All rights reserved.".data, [" */".data], ?_, ?_, ?_, ?_⟩
          · rw [copyrightText_eq]
            rfl
          · intro l hl c hc
            simp only [List.mem_singleton] at hl
            subst hl
            fin_cases hc <;> decide
          · intro c hc
            fin_cases hc <;> decide
          · intro l hl
            simp only [List.mem_cons, List.not_mem_nil, or_false] at hl
            rcases hl with rfl | rfl | rfl
            · exact ⟨by decide, by intro c hc; fin_cases hc <;> decide⟩
            · refine ⟨rfl, ?_⟩
              intro c hc
              rw [copyrightText_eq] at hc
              rcases List.mem_append.1 hc with hc | hc
              · fin_cases hc <;> decide
              · rcases List.mem_append.1 hc with hc | hc
                · exact hcop_clean c hc
                · exact htail_clean c hc
            · exact ⟨by decide, by intro c hc; fin_cases hc <;> decide⟩
        · exfalso
          simp only [recognizedExt, Bool.or_eq_true] at hext
          rcases hext with ((hx | hx) | hx) | hx
          · exact hc1 hx
          · exact hc2 hx
          · exact hc3 hx
          · exact hc4 hx

/-! ### Shape of the updated copyright text -/

theorem copFull_assoc (e1 e2 : Bool) (d1 : List Char) (opt : Option (List Char))
    (owner : List Char) :
    copFull e1 e2 d1 opt owner =
      ("Copyright ".data ++ bsl e1 ++ "(c".data ++ bsl e2 ++ ") ".data) ++
        (d1 ++ (optYears opt ++ (" by ".data ++ owner))) := by
  simp [copFull, List.append_assoc]

theorem copPrefix_no_digit (e1 e2 : Bool) :
    ∀ x ∈ "Copyright ".data ++ bsl e1 ++ "(c".data ++ bsl e2 ++ ") ".data,
      x.isDigit = false := by
  intro x hx
  simp only [List.append_assoc, List.mem_append] at hx
  rcases hx with hx | hx | hx | hx | hx
  · fin_cases hx <;> decide
  · rw [mem_bsl hx]; decide
  · fin_cases hx <;> decide
  · rw [mem_bsl hx]; decide
  · fin_cases hx <;> decide

theorem by_owner_no_digit {owner : List Char}
    (how : ∀ c ∈ owner, c.isDigit = false) :
    ∀ x ∈ " by ".data ++ owner, x.isDigit = false := by
  intro x hx
  rcases List.mem_append.1 hx with hx | hx
  · fin_cases hx <;> decide
  · exact how x hx

theorem newCop_single (e1 e2 : Bool) (d1 owner : List Char) (curr : Nat)
    (h1 : fourDig d1) (hv1 : 1000 ≤ val4 d1)
    (how : ∀ c ∈ owner, c.isDigit = false) :
    newCopyrightOf (copFull e1 e2 d1 none owner) (val4 d1) none curr =
      copFull e1 e2 d1 (some (decimal curr)) owner := by
  simp only [newCopyrightOf]
  rw [decimal_of_fourDig h1 hv1]
  obtain ⟨hlen, hdig⟩ := h1
  match d1, hlen with
  | [a, b, c, d], _ =>
    have ha : a.isDigit = true := hdig a (by simp)
    rw [copFull_assoc]
    rw [replaceAll_skip (copPrefix_no_digit e1 e2) ha]
    have hz : [a, b, c, d] ++ (optYears none ++ (" by ".data ++ owner)) =
        [a, b, c, d] ++ (" by ".data ++ owner) := by
      simp [optYears]
    rw [hz]
    rw [replaceAll_exact (by simp)]
    rw [replaceAll_no_digit (by_owner_no_digit how) ha]
    rw [copFull_assoc]
    simp [optYears, List.append_assoc]

theorem newCop_range_ne (e1 e2 : Bool) (d1 d2 owner : List Char) (curr : Nat)
    (h1 : fourDig d1) (h2 : fourDig d2) (hv2 : 1000 ≤ val4 d2) (hne : d1 ≠ d2)
    (how : ∀ c ∈ owner, c.isDigit = false) :
    newCopyrightOf (copFull e1 e2 d1 (some d2) owner) (val4 d1)
        (some (val4 d2)) curr =
      copFull e1 e2 d1 (some (decimal curr)) owner := by
  simp only [newCopyrightOf]
  rw [decimal_of_fourDig h2 hv2]
  obtain ⟨hlen2, hdig2⟩ := h2
  match d2, hlen2 with
  | [e, f, g, h], _ =>
    have he : e.isDigit = true := hdig2 e (by simp)
    rw [copFull_assoc]
    rw [replaceAll_skip (copPrefix_no_digit e1 e2) he]
    have hsh : d1 ++ (optYears (some [e, f, g, h]) ++ (" by ".data ++ owner)) =
        d1 ++ ',' :: ' ' :: ([e, f, g, h] ++ (" by ".data ++ owner)) := by
      simp [optYears, List.append_assoc]
    rw [hsh]
    rw [replaceAll_fourdig_skip h1 (show fourDig [e, f, g, h] from ⟨rfl, hdig2⟩) hne]
    rw [replaceAll_exact (by simp)]
    rw [replaceAll_no_digit (by_owner_no_digit how) he]
    rw [copFull_assoc]
    simp [optYears, List.append_assoc]

theorem newCop_range_eq (e1 e2 : Bool) (d1 owner : List Char) (curr : Nat)
    (h1 : fourDig d1) (hv1 : 1000 ≤ val4 d1)
    (how : ∀ c ∈ owner, c.isDigit = false) :
    newCopyrightOf (copFull e1 e2 d1 (some d1) owner) (val4 d1)
        (some (val4 d1)) curr =
      copFull e1 e2 (decimal curr) (some (decimal curr)) owner := by
  simp only [newCopyrightOf]
  rw [decimal_of_fourDig h1 hv1]
  obtain ⟨hlen, hdig⟩ := h1
  match d1, hlen with
  | [a, b, c, d], _ =>
    have ha : a.isDigit = true := hdig a (by simp)
    rw [copFull_assoc]
    rw [replaceAll_skip (copPrefix_no_digit e1 e2) ha]
    have hsh : [a, b, c, d] ++ (optYears (some [a, b, c, d]) ++
        (" by ".data ++ owner)) =
        [a, b, c, d] ++ (',' :: ' ' :: ([a, b, c, d] ++ (" by ".data ++ owner))) := by
      simp [optYears, List.append_assoc]
    rw [hsh]
    rw [replaceAll_exact (by simp)]
    have hcons : ',' :: ' ' :: ([a, b, c, d] ++ (" by ".data ++ owner)) =
        [',', ' '] ++ ([a, b, c, d] ++ (" by ".data ++ owner)) := rfl
    have hcomma : ∀ x ∈ [',', ' '], x.isDigit = false := by
      intro x hx
      fin_cases hx <;> decide
    rw [hcons, replaceAll_skip hcomma ha]
    rw [replaceAll_exact (by simp)]
    rw [replaceAll_no_digit (by_owner_no_digit how) ha]
    rw [copFull_assoc]
    simp [optYears, List.append_assoc]

/-- For any detected stale header (with years of four digits, no leading
zero) the update text keeps the `copFull` shape, with the current year
as second year. -/
theorem newCop_shape (e1 e2 : Bool) (d1 : List Char) (opt : Option (List Char))
    (owner : List Char) (curr : Nat) (h1 : fourDig d1) (hv1 : 1000 ≤ val4 d1)
    (hc1 : 1000 ≤ curr) (hc2 : curr ≤ 9999)
    (hopt : ∀ d2, opt = some d2 → fourDig d2 ∧ 1000 ≤ val4 d2)
    (how : ∀ c ∈ owner, c.isDigit = false) :
    ∃ D, fourDig D ∧
      newCopyrightOf (copFull e1 e2 d1 opt owner) (val4 d1) (opt.map val4) curr =
        copFull e1 e2 D (some (decimal curr)) owner := by
  cases opt with
  | none => exact ⟨d1, h1, newCop_single e1 e2 d1 owner curr h1 hv1 how⟩
  | some d2 =>
    obtain ⟨h2, hv2⟩ := hopt d2 rfl
    by_cases hne : d1 = d2
    · subst hne
      exact ⟨decimal curr, decimal_four_digits hc1 hc2,
        newCop_range_eq e1 e2 d1 owner curr h1 hv1 how⟩
    · exact ⟨d1, h1, newCop_range_ne e1 e2 d1 d2 owner curr h1 h2 hv2 hne how⟩

/-! ### Structure of the content after an insert -/

theorem NLpost_cases (S : List (List Char)) :
    NLpost S = [] ∨ ∃ w, NLpost S = '\n' :: w := by
  cases S with
  | nil => exact Or.inl rfl
  | cons s S2 => exact Or.inr ⟨joinNL (s :: S2), rfl⟩

theorem cleanLine_of_tame {content l : List Char}
    (ht : contentTame content = true)
    (hsub : ∀ c ∈ l, c ∈ content) (hnl : '\n' ∉ l) : cleanLine l := by
  intro c hc
  have h2 := List.all_eq_true.1 ht c (hsub c hc)
  simp only [Bool.or_eq_true, Bool.not_eq_true', decide_eq_true_eq] at h2
  rcases h2 with h2 | h2
  · exact h2
  · exact absurd (h2 ▸ hc) hnl

theorem headerYears_extract {owner content : List Char} {i y1 : Nat}
    {oy2 : Option Nat} {len : Nat}
    (hy : headerYearsOk owner content = true)
    (hs : copSearch owner (content_head content) = some (i, y1, oy2, len)) :
    1000 ≤ y1 ∧ ∀ y2, oy2 = some y2 → 1000 ≤ y2 := by
  unfold headerYearsOk at hy
  rw [hs] at hy
  simp only [Bool.and_eq_true, decide_eq_true_eq] at hy
  refine ⟨hy.1, ?_⟩
  intro y2 he
  have h3 := hy.2
  rw [he] at h3
  simpa using h3

/-- Inserting the missing copyright produces content whose head is a
line list containing the freshly wrapped copyright line; the lines
before it are either `'C'`-free wrapper lines or head lines of the
original content. -/
theorem insert_structure (filename content owner : List Char) (curr : Nat)
    (hext : recognizedExt (ending filename) = true)
    (ht : contentTame content = true)
    (ho : ownerOkB owner = true)
    (h1 : 1000 ≤ curr) (h2 : curr ≤ 9999) :
    ∃ c1 L1 A e1 e2 B L2,
      (insert_missing_copyright filename content curr owner).1 = some c1 ∧
      content_head c1 =
        joinNL (L1 ++ (A ++ (copFull e1 e2 (decimal curr) none owner ++ B)) :: L2) ∧
      (∀ c ∈ A, c ≠ 'C') ∧
      (∀ l ∈ L1, (∀ c ∈ l, c ≠ 'C') ∨ l ∈ headLines (splitLines content)) := by
  obtain ⟨W1, A, e1, e2, B, W2, hW, hW1C, hAC, hWprops⟩ :=
    wrapLines_struct filename owner curr hext h1 h2 ho
  have hwrap : wrap_copyright filename (copyrightText curr owner) =
      NLpre (wrapLines filename (copyrightText curr owner)) :=
    wrap_eq_NLpre (copyrightText curr owner) hext
  have hclean : ∀ l ∈ wrapLines filename (copyrightText curr owner), cleanLine l :=
    fun l hl => (hWprops l hl).2
  have halpha : ∀ l ∈ wrapLines filename (copyrightText curr owner),
      startsAlpha l = false := fun l hl => (hWprops l hl).1
  have hne : (wrap_copyright filename (copyrightText curr owner)).isEmpty = false :=
    wrap_isEmpty_false (copyrightText curr owner) hext
  have hmain : ∀ (P : List (List Char)) (X : List Char),
      (∀ l ∈ P, cleanLine l) → (∀ l ∈ P, startsAlpha l = false) →
      ∃ H2, content_head
          (NLpre (P ++ wrapLines filename (copyrightText curr owner)) ++ X) =
        joinNL ((P ++ W1) ++
          (A ++ (copFull e1 e2 (decimal curr) none owner ++ B)) :: H2) := by
    intro P X hPc hPa
    have hsp : splitLines
        (NLpre (P ++ wrapLines filename (copyrightText curr owner)) ++ X) =
        (P ++ wrapLines filename (copyrightText curr owner)) ++ splitLines X := by
      apply splitLines_NLpre
      intro l hl
      rcases List.mem_append.1 hl with hl | hl
      · exact hPc l hl
      · exact hclean l hl
    have hassoc : (P ++ wrapLines filename (copyrightText curr owner)) ++
        splitLines X = (P ++ W1) ++
          ((A ++ (copFull e1 e2 (decimal curr) none owner ++ B)) ::
            (W2 ++ splitLines X)) := by
      rw [hW]
      simp [List.append_assoc]
    rw [content_head, hsp, hassoc]
    rw [headLines_append_nonalpha ?hna]
    case hna =>
      intro l hl
      rcases List.mem_append.1 hl with hl | hl
      · exact hPa l hl
      · exact halpha l (by rw [hW]; exact List.mem_append_left _ hl)
    obtain ⟨H2, hH2⟩ := headLines_cons
      (A ++ (copFull e1 e2 (decimal curr) none owner ++ B)) (W2 ++ splitLines X)
    rw [hH2]
    exact ⟨H2, rfl⟩
  simp only [insert_missing_copyright, hne, Bool.false_eq_true, if_false]
  rcases getIndex_cases content with hidx |
      ⟨l1, r, hceq, hnl1, halpha1, hidx⟩ |
      ⟨l1, l2, r2, hceq, hnl1, hnl2, ha1, ha2, hidx⟩
  · rw [hidx]
    rw [if_neg (by omega)]
    obtain ⟨H2, hH2⟩ := hmain []
      ((if content.isEmpty = true then ([] : List Char) else ['\n']) ++ content)
      (by simp) (by simp)
    simp only [List.nil_append] at hH2
    refine ⟨_, W1, A, e1, e2, B, H2, rfl, ?_, hAC,
      fun l hl => Or.inl (hW1C l hl)⟩
    rw [hwrap, List.append_assoc]
    exact hH2
  · have hcl1 : cleanLine l1 := by
      apply cleanLine_of_tame ht ?_ hnl1
      intro c hc
      rw [hceq]
      exact List.mem_append_left _ hc
    have hmem1 : l1 ∈ headLines (splitLines content) := by
      rw [hceq, splitLines_clean_cons hcl1]
      obtain ⟨H0, hH0⟩ := headLines_cons l1 (splitLines r)
      rw [hH0]
      exact List.mem_cons_self _ _
    rw [hidx]
    rw [if_pos (by omega)]
    obtain ⟨H2, hH2⟩ := hmain [l1] r
      (by intro l hl; rw [List.mem_singleton] at hl; rw [hl]; exact hcl1)
      (by intro l hl; rw [List.mem_singleton] at hl; rw [hl]; exact halpha1)
    refine ⟨_, [l1] ++ W1, A, e1, e2, B, H2, rfl, ?_, hAC, ?_⟩
    · rw [hceq, take_append_nl, drop_append_nl_succ, hwrap]
      have hx : (l1 ++ ['\n']) ++
          NLpre (wrapLines filename (copyrightText curr owner)) =
          NLpre ([l1] ++ wrapLines filename (copyrightText curr owner)) := by
        rw [NLpre_append]
        have h5 : NLpre [l1] = l1 ++ ['\n'] := by
          rw [NLpre_cons]
          rfl
        rw [h5]
      rw [hx, hH2]
    · intro l hl
      rcases List.mem_append.1 hl with hl | hl
      · rw [List.mem_singleton] at hl
        rw [hl]
        exact Or.inr hmem1
      · exact Or.inl (hW1C l hl)
  · have hcl1 : cleanLine l1 := by
      apply cleanLine_of_tame ht ?_ hnl1
      intro c hc
      rw [hceq]
      exact List.mem_append_left _ hc
    have hcl2 : cleanLine l2 := by
      apply cleanLine_of_tame ht ?_ hnl2
      intro c hc
      rw [hceq]
      refine List.mem_append_right _ ?_
      exact List.mem_cons_of_mem _ (List.mem_append_left _ hc)
    have hsp2 : splitLines content = l1 :: l2 :: splitLines r2 := by
      rw [hceq, splitLines_clean_cons hcl1, splitLines_clean_cons hcl2]
    have hmem1 : l1 ∈ headLines (splitLines content) := by
      rw [hsp2]
      obtain ⟨H0, hH0⟩ := headLines_cons l1 (l2 :: splitLines r2)
      rw [hH0]
      exact List.mem_cons_self _ _
    have hmem2 : l2 ∈ headLines (splitLines content) := by
      rw [hsp2, headLines, if_neg (by rw [ha1]; exact Bool.noConfusion)]
      obtain ⟨H0, hH0⟩ := headLines_cons l2 (splitLines r2)
      rw [hH0]
      exact List.mem_cons_of_mem _ (List.mem_cons_self _ _)
    rw [hidx]
    rw [if_pos (by omega)]
    obtain ⟨H2, hH2⟩ := hmain [l1, l2] r2
      (by
        intro l hl
        rcases List.mem_cons.1 hl with rfl | hl
        · exact hcl1
        · rw [List.mem_singleton] at hl
          rw [hl]
          exact hcl2)
      (by
        intro l hl
        rcases List.mem_cons.1 hl with rfl | hl
        · exact ha1
        · rw [List.mem_singleton] at hl
          rw [hl]
          exact ha2)
    refine ⟨_, [l1, l2] ++ W1, A, e1, e2, B, H2, rfl, ?_, hAC, ?_⟩
    · rw [hceq, take_append_nl_add, take_append_nl, drop_append_nl_add,
        drop_append_nl_succ, hwrap]
      have hx : (l1 ++ '\n' :: (l2 ++ ['\n'])) ++
          NLpre (wrapLines filename (copyrightText curr owner)) =
          NLpre ([l1, l2] ++ wrapLines filename (copyrightText curr owner)) := by
        rw [NLpre_append]
        have h5 : NLpre [l1, l2] = l1 ++ '\n' :: (l2 ++ ['\n']) := by
          rw [NLpre_cons, NLpre_cons]
          rfl
        rw [h5]
      rw [hx, hH2]
    · intro l hl
      rcases List.mem_append.1 hl with hl | hl
      · rcases List.mem_cons.1 hl with rfl | hl
        · exact Or.inr hmem1
        · rw [List.mem_singleton] at hl
          rw [hl]
          exact Or.inr hmem2
      · exact Or.inl (hW1C l hl)

/-- Updating a stale header in place leaves content whose head has a
leftmost copyright match carrying the current year as second year. -/
theorem update_structure {content owner : List Char} {curr i y1 : Nat}
    {oy2 : Option Nat} {len : Nat}
    (ht : contentTame content = true) (ho : ownerOkB owner = true)
    (hc1 : 1000 ≤ curr) (hc2 : curr ≤ 9999)
    (hs : copSearch owner (content_head content) = some (i, y1, oy2, len))
    (hy1 : 1000 ≤ y1) (hy2 : ∀ y2, oy2 = some y2 → 1000 ≤ y2) :
    ∃ p v len2,
      copSearch owner (content_head (subFirst owner content
        (newCopyrightOf (((content_head content).drop i).take len) y1 oy2 curr))) =
      some (p, v, some curr, len2) := by
  have hown := ownerOk_chars ho
  have hbreak : ∀ c ∈ owner, isBreakChar c = false := fun c hc => (hown c hc).1
  have hCfree : ∀ c ∈ owner, c ≠ 'C' := fun c hc => (hown c hc).2.1
  have hdfree : ∀ c ∈ owner, c.isDigit = false := fun c hc => (hown c hc).2.2.1
  have hs2 : copSearch owner (joinNL (headLines (splitLines content))) =
      some (i, y1, oy2, len) := hs
  obtain ⟨L1, l0, L2, j, rest0, hls_eq, hSN1, hj, hmin⟩ :=
    copSearch_joinNL_inv hbreak hs2
  obtain ⟨e1, e2, d1, opt, hsound, hd1, hval, hoy, hopt⟩ := copMatchAt_sound hj
  have hjlen : j < l0.length := lt_length_of_matchAt hj
  have hrest_le : rest0.length ≤ (l0.drop j).length := by rw [hsound]; simp
  have hMlen : (copFull e1 e2 d1 opt owner).length =
      (l0.drop j).length - rest0.length := by
    rw [hsound]
    simp
  obtain ⟨post, hpost⟩ := headLines_prefix (splitLines content)
  have hhead_eq : content_head content = NLpre L1 ++ (l0 ++ NLpost L2) := by
    rw [content_head, hls_eq, joinNL_decomp]
  have hs3 : copSearch owner (NLpre L1 ++ (l0 ++ NLpost L2)) =
      some (i, y1, oy2, len) := by
    rw [← hhead_eq]
    exact hs
  have hloc := copSearch_localized hbreak hSN1 hj hmin (NLpost_cases L2)
  rw [hs3] at hloc
  simp only [Option.some.injEq, Prod.mk.injEq] at hloc
  obtain ⟨hi_eq, -, -, hlen_eq⟩ := hloc
  have hdrop_head : (l0 ++ NLpost L2).drop j = l0.drop j ++ NLpost L2 := by
    rw [List.drop_append_eq_append_drop, (show j - l0.length = 0 by omega)]
    rfl
  have hfull : ((content_head content).drop i).take len =
      copFull e1 e2 d1 opt owner := by
    rw [hhead_eq, hi_eq, hlen_eq, drop_append_len, hdrop_head, ← hMlen, hsound,
      List.append_assoc]
    exact List.take_left _ _
  obtain ⟨D, hD4, hnewD⟩ := newCop_shape e1 e2 d1 opt owner curr hd1
    (by rw [hval]; exact hy1) hc1 hc2
    (by
      intro d2 hd2
      refine ⟨hopt d2 hd2, ?_⟩
      exact hy2 (val4 d2) (by rw [hoy, hd2]; rfl))
    hdfree
  have hneweq2 : newCopyrightOf (copFull e1 e2 d1 opt owner) y1 oy2 curr =
      copFull e1 e2 D (some (decimal curr)) owner := by
    rw [← hval, hoy]
    exact hnewD
  obtain ⟨t, hrecon, htcase⟩ := tame_reconstruct ht
  have hsl : splitLines content = L1 ++ (l0 :: (L2 ++ post)) := by
    rw [hpost, hls_eq]
    simp
  have hcontent : content = NLpre L1 ++ (l0 ++ (NLpost (L2 ++ post) ++ t)) := by
    conv_lhs => rw [hrecon, hsl, joinNL_decomp]
    simp [List.append_assoc]
  have hTL := NLpost_cases (L2 ++ post)
  have htail2 : NLpost (L2 ++ post) ++ t = [] ∨
      ∃ w, NLpost (L2 ++ post) ++ t = '\n' :: w := by
    rcases hTL with hTL | ⟨w, hTL⟩
    · rw [hTL, List.nil_append]
      rcases htcase with rfl | rfl
      · exact Or.inl rfl
      · exact Or.inr ⟨[], rfl⟩
    · rw [hTL]
      exact Or.inr ⟨w ++ t, rfl⟩
  have hsearchC : copSearch owner content =
      some ((NLpre L1).length + j, y1, oy2,
        (l0.drop j).length - rest0.length) := by
    rw [hcontent]
    exact copSearch_localized hbreak hSN1 hj hmin htail2
  have htake : content.take ((NLpre L1).length + j) = NLpre L1 ++ l0.take j := by
    rw [hcontent, take_append_len]
    congr 1
    exact List.take_append_of_le_length (by omega)
  have hlentakej : (l0.take j).length = j := by
    rw [List.length_take]
    omega
  have hdrop : content.drop ((NLpre L1).length + j +
      ((l0.drop j).length - rest0.length)) =
      rest0 ++ (NLpost (L2 ++ post) ++ t) := by
    rw [hcontent]
    rw [(show (NLpre L1).length + j + ((l0.drop j).length - rest0.length) =
      (NLpre L1).length + (j + ((l0.drop j).length - rest0.length)) by omega)]
    rw [drop_append_len]
    have hsplit0 : l0 ++ (NLpost (L2 ++ post) ++ t) =
        l0.take j ++ (copFull e1 e2 d1 opt owner ++
          (rest0 ++ (NLpost (L2 ++ post) ++ t))) := by
      conv_lhs => rw [← List.take_append_drop j l0, hsound]
      simp [List.append_assoc]
    rw [hsplit0]
    rw [(show j + ((l0.drop j).length - rest0.length) =
      (l0.take j).length + ((l0.drop j).length - rest0.length) by
        rw [hlentakej])]
    rw [drop_append_len, ← hMlen, List.drop_left]
  obtain ⟨wt, hWC, hwtC⟩ := copFull_C hD4.2
    (by
      intro d2 hd2 c hcc
      rw [← Option.some.inj hd2] at hcc
      exact (decimal_four_digits hc1 hc2).2 c hcc) hCfree
  have hL1clean : ∀ l ∈ L1, cleanLine l := by
    intro l hl
    apply lines_clean_tame ht
    rw [hsl]
    exact List.mem_append_left _ hl
  have hl0clean : cleanLine l0 := by
    apply lines_clean_tame ht
    rw [hsl]
    exact List.mem_append_right _ (List.mem_cons_self _ _)
  have hWclean : cleanLine (copFull e1 e2 D (some (decimal curr)) owner) :=
    copFull_no_break hD4.2
      (by
        intro d2 hd2 c hcc
        rw [← Option.some.inj hd2] at hcc
        exact (decimal_four_digits hc1 hc2).2 c hcc) hbreak
  have hEclean : cleanLine
      (l0.take j ++ (copFull e1 e2 D (some (decimal curr)) owner ++ rest0)) := by
    intro c hc
    rcases List.mem_append.1 hc with hc | hc
    · exact hl0clean c (List.take_subset j l0 hc)
    · rcases List.mem_append.1 hc with hc | hc
      · exact hWclean c hc
      · apply hl0clean c
        apply List.drop_subset j l0
        rw [hsound]
        exact List.mem_append_right _ hc
  have hEne : l0.take j ++ (copFull e1 e2 D (some (decimal curr)) owner ++ rest0) ≠
      [] := by
    intro hcon
    rcases List.append_eq_nil.1 hcon with ⟨-, h2⟩
    rcases List.append_eq_nil.1 h2 with ⟨h3, -⟩
    rw [hWC] at h3
    exact List.cons_ne_nil _ _ h3
  have hsplitE : ∃ REST, splitLines
      ((l0.take j ++ (copFull e1 e2 D (some (decimal curr)) owner ++ rest0)) ++
        (NLpost (L2 ++ post) ++ t)) =
      (l0.take j ++ (copFull e1 e2 D (some (decimal curr)) owner ++ rest0)) ::
        REST := by
    rcases htail2 with hTL2 | ⟨w, hTL2⟩
    · rw [hTL2, List.append_nil]
      exact ⟨[], splitLines_clean_single hEclean hEne⟩
    · rw [hTL2]
      exact ⟨splitLines w, splitLines_clean_cons hEclean⟩
  obtain ⟨REST, hREST⟩ := hsplitE
  have hL1alpha : ∀ l ∈ L1, startsAlpha l = false :=
    headLines_before_nonalpha hls_eq
  obtain ⟨H2, hH2⟩ := headLines_cons
    (l0.take j ++ (copFull e1 e2 D (some (decimal curr)) owner ++ rest0)) REST
  have hdropE : (l0.take j ++
      (copFull e1 e2 D (some (decimal curr)) owner ++ rest0)).drop j =
      copFull e1 e2 D (some (decimal curr)) owner ++ rest0 := by
    rw [List.drop_append_eq_append_drop]
    rw [List.drop_eq_nil_of_le (by rw [hlentakej])]
    rw [(show j - (l0.take j).length = 0 by omega)]
    rfl
  have hjE : copMatchAt owner ((l0.take j ++
      (copFull e1 e2 D (some (decimal curr)) owner ++ rest0)).drop j) =
      some (val4 D, some curr, rest0) := by
    rw [hdropE, copMatchAt_complete e1 e2 rest0 hD4
      (by
        intro d2 hd2
        rw [← Option.some.inj hd2]
        exact decimal_four_digits hc1 hc2)]
    simp [val4_decimal hc1 hc2]
  have hl0id : l0.take j ++ (copFull e1 e2 d1 opt owner ++ rest0) = l0 := by
    conv_rhs => rw [← List.take_append_drop j l0, hsound]
  have hminE : ∀ k, k < j → copMatchAt owner ((l0.take j ++
      (copFull e1 e2 D (some (decimal curr)) owner ++ rest0)).drop k) = none := by
    intro k hk
    exact matchAt_none_edited
      (R := copFull e1 e2 d1 opt owner ++ rest0)
      (by rw [hlentakej]; exact hk)
      ⟨wt ++ rest0, by rw [hWC]; rfl⟩ hCfree
      (by rw [hl0id]; exact hmin k hk)
  rw [hfull, hneweq2]
  have hsub : subFirst owner content
      (copFull e1 e2 D (some (decimal curr)) owner) =
      content.take ((NLpre L1).length + j) ++
        copFull e1 e2 D (some (decimal curr)) owner ++
        content.drop ((NLpre L1).length + j +
          ((l0.drop j).length - rest0.length)) := by
    simp only [subFirst, hsearchC]
  rw [hsub, htake, hdrop]
  have hassemble : (NLpre L1 ++ l0.take j) ++
      copFull e1 e2 D (some (decimal curr)) owner ++
      (rest0 ++ (NLpost (L2 ++ post) ++ t)) =
      NLpre L1 ++ ((l0.take j ++
        (copFull e1 e2 D (some (decimal curr)) owner ++ rest0)) ++
        (NLpost (L2 ++ post) ++ t)) := by
    simp [List.append_assoc]
  rw [hassemble, content_head, splitLines_NLpre hL1clean, hREST,
    headLines_append_nonalpha hL1alpha, hH2, joinNL_decomp]
  exact ⟨(NLpre L1).length + j, val4 D, _,
    copSearch_localized hbreak hSN1 hjE hminE (NLpost_cases H2)⟩

/-! ### Reduction lemmas for `check_copyright_content` -/

theorem check_content_found (filename owner content : List Char) (update : Bool)
    (authored : Option Nat) (staged : Bool) (curr : Nat)
    (i y1 : Nat) (oy2 : Option Nat) (len : Nat)
    (hs : copSearch owner (content_head content) = some (i, y1, oy2, len)) :
    check_copyright_content filename owner update authored staged curr content =
      (if (should_check authored staged curr filename).1 &&
          decide (porNat (oy2.getD 0) y1 < curr) then
        (if update then
          (1, some (subFirst owner content
            (newCopyrightOf (((content_head content).drop i).take len) y1 oy2 curr)),
           (should_check authored staged curr filename).2 ++
             ["Updating copyright: ".data ++ filename])
        else
          (1, none, (should_check authored staged curr filename).2 ++
            ["Copyright is out-of-date: ".data ++ filename]))
      else (0, none, (should_check authored staged curr filename).2)) := by
  unfold check_copyright_content
  rw [hs]

theorem check_content_missing (filename owner content : List Char) (update : Bool)
    (authored : Option Nat) (staged : Bool) (curr : Nat)
    (hs : copSearch owner (content_head content) = none) :
    check_copyright_content filename owner update authored staged curr content =
      (if update then
        (1, (insert_missing_copyright filename content curr owner).1,
         (insert_missing_copyright filename content curr owner).2)
      else (1, none, ["Missing copyright for file ".data ++ filename])) := by
  unfold check_copyright_content
  rw [hs]

theorem check_content_noupdate_nowrite (filename owner content : List Char)
    (authored : Option Nat) (staged : Bool) (curr : Nat) :
    (check_copyright_content filename owner false authored staged curr
      content).2.1 = none := by
  cases hs : copSearch owner (content_head content) with
  | none =>
    rw [check_content_missing filename owner content false authored staged curr hs]
    rfl
  | some v =>
    obtain ⟨i, y1, oy2, len⟩ := v
    rw [check_content_found filename owner content false authored staged curr
      i y1 oy2 len hs]
    by_cases hc : ((should_check authored staged curr filename).1 &&
        decide (porNat (oy2.getD 0) y1 < curr)) = true
    · rw [if_pos hc]
      rfl
    · rw [if_neg hc]

theorem check_noupdate_nowrite (filename owner : List Char)
    (authored : Option Nat) (staged : Bool) (curr : Nat)
    (readable decodable : Bool) (raw : List Char) :
    (check_copyright filename owner false authored staged curr readable
      decodable raw).2.1 = none := by
  unfold check_copyright
  cases readable with
  | false => rfl
  | true =>
    cases decodable with
    | false => rfl
    | true =>
      show (check_copyright_content filename owner false authored staged curr
        raw).2.1 = none
      exact check_content_noupdate_nowrite filename owner raw authored staged curr

theorem should_check_fst (authored : Option Nat) (staged : Bool) (curr : Nat)
    (filename : List Char) (ha : authored ≠ some 0) :
    (should_check authored staged curr filename).1 =
      (decide (authored = none) || decide (authored = some curr) || staged) := by
  cases authored with
  | none => rfl
  | some y =>
    have hy0 : ¬(y = 0) := fun h => ha (by rw [h])
    by_cases hyc : some y = some curr
    · simp [should_check, file_authored_falsy, hy0, hyc]
    · cases staged with
      | false => simp [should_check, file_authored_falsy, hy0, hyc]
      | true => simp [should_check, file_authored_falsy, hy0, hyc]

/-! ### The claims -/

/-- C1: for every file whose full text matches the version pattern, the
single-file version check fails (returning 1 with a message naming the
file) exactly when the diff text has no version-pattern match; a file
without a version-pattern match succeeds silently. -/
theorem C1_version_check (vf content changes : List Char) :
    (versionSearch content = true →
      ((check_version_file vf content changes).1 = 1 ↔
        versionSearch changes = false) ∧
      (versionSearch changes = false →
        check_version_file vf content changes =
          (1, ["Version bumped required in ".data ++ vf]))) ∧
    (versionSearch content = false →
      check_version_file vf content changes = (0, [])) := by
  constructor
  · intro hc
    unfold check_version_file
    rw [if_pos hc]
    by_cases hch : versionSearch changes = true
    · rw [if_pos hch]
      refine ⟨⟨fun h1 => absurd h1 (by decide), fun h2 => ?_⟩, fun h2 => ?_⟩
      · rw [h2] at hch
        exact absurd hch Bool.noConfusion
      · rw [h2] at hch
        exact absurd hch Bool.noConfusion
    · rw [if_neg hch]
      have hf : versionSearch changes = false := by
        cases h : versionSearch changes with
        | false => rfl
        | true => exact absurd h hch
      exact ⟨⟨fun _ => hf, fun _ => rfl⟩, fun _ => rfl⟩
  · intro hc
    unfold check_version_file
    rw [if_neg (by rw [hc]; exact Bool.noConfusion)]

/-- C5 amended: the import checker skips a `from MODULE import NAMES`
node exactly by the membership of `MODULE` in the user-supplied skip
set; there is no built-in special case for `__future__`. -/
theorem C5_skip_by_membership (skip : List (List Char)) (node : ImportFrom)
    (h : skip.contains node.modname = true) :
    check_import_from skip node = 0 := by
  unfold check_import_from
  rw [if_pos h]

/-- C5 counterexample: with an empty skip set, a file consisting of
`from __future__ import annotations` is flagged (exit 1) when resolving
`annotations` as a submodule raises the import error, so `__future__`
receives no special treatment. -/
theorem C5_counterexample :
    check_only_modules_imported
      [[⟨"__future__".data, ["annotations".data], true,
        fun _ => NameResolve.importError⟩]] [] = 1 := rfl

/-- C5 witness for the amended theorem: the same node passes once
`__future__` is put in the skip set. -/
theorem C5_skip_witness :
    check_import_from ["__future__".data]
      ⟨"__future__".data, ["annotations".data], true,
        fun _ => NameResolve.importError⟩ = 0 :=
  C5_skip_by_membership ["__future__".data]
    ⟨"__future__".data, ["annotations".data], true,
      fun _ => NameResolve.importError⟩ (by decide)

/-- C6: on an empty `a.py` with owner `fake` and current year 2024, the
copyright check with update writes exactly the hash-wrapped header with
no extra trailing content, prints `Adding copyright to a.py`, and
returns exit code 1. -/
theorem C6_empty_py :
    check_copyright "a.py".data "fake".data true none false 2024 true true [] =
      (1, some "#\n# Copyright (c) 2024 by fake. All rights reserved.\n#\n".data,
       ["Adding copyright to a.py".data]) := by decide

/-- C8: an unreadable or undecodable file is skipped with a warning:
the per-file check writes nothing and returns success (0). -/
theorem C8_unreadable_skips (filename owner : List Char) (update : Bool)
    (authored : Option Nat) (staged : Bool) (curr : Nat)
    (readable decodable : Bool) (raw : List Char)
    (h : readable = false ∨ decodable = false) :
    check_copyright filename owner update authored staged curr readable
      decodable raw =
      (0, none,
       if readable then
         ["Cannot decode ".data ++ filename ++ " with 'utf-8'. Skipping.".data]
       else ["Cannot read ".data ++ filename ++ ". Skipping.".data]) := by
  rcases h with h | h
  · subst h
    rfl
  · subst h
    cases readable with
    | false => rfl
    | true => rfl

/-- C8 witness at a concrete unreadable file. -/
theorem C8_witness :
    check_copyright "a.py".data "fake".data true none false 2024 false true
      "x".data =
      (0, none,
       if false then
         ["Cannot decode ".data ++ "a.py".data ++ " with 'utf-8'. Skipping.".data]
       else ["Cannot read ".data ++ "a.py".data ++ ". Skipping.".data]) :=
  C8_unreadable_skips "a.py".data "fake".data true none false 2024 false true
    "x".data (Or.inl rfl)

/-- C9: with update disabled the checker never writes: every per-file
written-back content is `none`, on every input list. -/
theorem C9_report_only_never_writes (files : List FileEnv) (owner : List Char)
    (curr : Nat) :
    ((copyright_checker files owner false curr).2.all fun w => w.isNone) =
      true := by
  suffices h : ∀ acc, ((copyright_checker_go owner false curr acc files).2.all
      fun w => w.isNone) = true from h 0
  induction files with
  | nil => intro acc; rfl
  | cons f fs ih =>
    intro acc
    simp only [copyright_checker_go, List.all_cons]
    rw [check_noupdate_nowrite, ih]
    rfl

/-- C2 amended: for a detected header (its full match has the canonical
shape) with a single four-digit year, or a range whose second year
differs from the first, the computed update rewrites the year part to
`Y1, CURR` and preserves every other character of the header.  (The
case of a range with equal years is excluded: see the counterexample.) -/
theorem C2_header_update (e1 e2 : Bool) (d1 : List Char)
    (opt : Option (List Char)) (owner : List Char) (curr : Nat)
    (h1 : fourDig d1) (hv1 : 1000 ≤ val4 d1)
    (hopt : ∀ d2, opt = some d2 → fourDig d2 ∧ 1000 ≤ val4 d2 ∧ d2 ≠ d1)
    (how : ∀ c ∈ owner, c.isDigit = false) :
    newCopyrightOf (copFull e1 e2 d1 opt owner) (val4 d1) (opt.map val4) curr =
      copFull e1 e2 d1 (some (decimal curr)) owner := by
  cases opt with
  | none => exact newCop_single e1 e2 d1 owner curr h1 hv1 how
  | some d2 =>
    obtain ⟨h2, hv2, hne⟩ := hopt d2 rfl
    exact newCop_range_ne e1 e2 d1 d2 owner curr h1 h2 hv2
      (fun he => hne he.symm) how

/-- C2 counterexample: a stale header with the equal-year range
`2023, 2023` is rewritten to `2024, 2024`, not to the claimed
`2023, 2024` — `str.replace` replaces every occurrence. -/
theorem C2_counterexample :
    (check_copyright_content "a.py".data "fake".data true none false 2024
      "Copyright (c) 2023, 2023 by fake. All rights reserved.".data).2.1 =
      some "Copyright (c) 2024, 2024 by fake. All rights reserved.".data ∧
    (check_copyright_content "a.py".data "fake".data true none false 2024
      "Copyright (c) 2023, 2023 by fake. All rights reserved.".data).2.1 ≠
      some "Copyright (c) 2023, 2024 by fake. All rights reserved.".data := by
  constructor
  · decide
  · decide

/-- C2 witness: the update of `Copyright (c) 2000, 2022 by fake` at
current year 2024. -/
theorem C2_witness :
    newCopyrightOf (copFull false false "2000".data (some "2022".data)
        "fake".data) (val4 "2000".data) ((some "2022".data).map val4) 2024 =
      copFull false false "2000".data (some (decimal 2024)) "fake".data :=
  C2_header_update false false "2000".data (some "2022".data) "fake".data 2024
    ⟨by decide, by decide⟩ (by decide)
    (fun d2 h => by
      rw [← Option.some.inj h]
      exact ⟨⟨by decide, by decide⟩, by decide, by decide⟩)
    (by decide)

/-- C7 amended: for a readable file with a detected header whose second
year group (when present) is nonzero, the check fails exactly when the
recheck condition holds and the last year is older than the current
year; otherwise it returns 0.  (A second year `0000` is treated as
absent by the code — see the counterexample.) -/
theorem C7_failure_iff (filename owner content : List Char) (update : Bool)
    (authored : Option Nat) (staged : Bool) (curr : Nat)
    (i y1 : Nat) (oy2 : Option Nat) (len : Nat)
    (hs : copSearch owner (content_head content) = some (i, y1, oy2, len))
    (ha : authored ≠ some 0)
    (hy2 : ∀ y2, oy2 = some y2 → 0 < y2) :
    (check_copyright_content filename owner update authored staged curr
      content).1 =
      (if (authored = none ∨ authored = some curr ∨ staged = true) ∧
          oy2.getD y1 < curr then 1 else 0) := by
  rw [check_content_found filename owner content update authored staged curr
    i y1 oy2 len hs]
  have hsc := should_check_fst authored staged curr filename ha
  have hlast : porNat (oy2.getD 0) y1 = oy2.getD y1 := by
    cases oy2 with
    | none => rfl
    | some y2 =>
      have hpos : ¬(y2 = 0) := by
        have := hy2 y2 rfl
        omega
      simp [porNat, hpos]
  rw [hsc, hlast]
  by_cases hP : (authored = none ∨ authored = some curr ∨ staged = true) ∧
      oy2.getD y1 < curr
  · rw [if_pos hP]
    have hb : ((decide (authored = none) || decide (authored = some curr) ||
        staged) && decide (oy2.getD y1 < curr)) = true := by
      obtain ⟨hP1, hP2⟩ := hP
      simp only [Bool.and_eq_true, Bool.or_eq_true, decide_eq_true_eq]
      refine ⟨?_, hP2⟩
      rcases hP1 with h | h | h
      · exact Or.inl (Or.inl h)
      · exact Or.inl (Or.inr h)
      · exact Or.inr h
    rw [if_pos hb]
    cases update with
    | false => rfl
    | true => rfl
  · rw [if_neg hP]
    have hb : ((decide (authored = none) || decide (authored = some curr) ||
        staged) && decide (oy2.getD y1 < curr)) = false := by
      cases hB : ((decide (authored = none) || decide (authored = some curr) ||
          staged) && decide (oy2.getD y1 < curr)) with
      | false => rfl
      | true =>
        exfalso
        apply hP
        simp only [Bool.and_eq_true, Bool.or_eq_true, decide_eq_true_eq] at hB
        obtain ⟨hB1, hB2⟩ := hB
        refine ⟨?_, hB2⟩
        rcases hB1 with (h | h) | h
        · exact Or.inl h
        · exact Or.inr (Or.inl h)
        · exact Or.inr (Or.inr h)
    rw [hb]
    rfl

/-- C7 counterexample: a header `Copyright (c) 2024, 0000 by fake` is
detected with second year 0; the claim predicts failure (last year
0 < 2024 and the file is not in git), but the code falls back to the
first year (Python `or` treats 0 as false) and returns 0. -/
theorem C7_counterexample :
    copSearch "fake".data (content_head
      "Copyright (c) 2024, 0000 by fake. All rights reserved.".data) =
      some (0, 2024, some 0, 32) ∧
    (check_copyright_content "a.py".data "fake".data false none false 2024
      "Copyright (c) 2024, 0000 by fake. All rights reserved.".data).1 = 0 := by
  constructor
  · decide
  · decide

/-- C7 witness: a stale single-year header on a file not in git. -/
theorem C7_witness :
    (check_copyright_content "a.py".data "fake".data false none false 2024
      "Copyright (c) 2000 by fake. All rights reserved.".data).1 =
      (if ((none : Option Nat) = none ∨ (none : Option Nat) = some 2024 ∨
          false = true) ∧ (none : Option Nat).getD 2000 < 2024 then 1
       else 0) :=
  C7_failure_iff "a.py".data "fake".data
    "Copyright (c) 2000 by fake. All rights reserved.".data false none false
    2024 0 2000 none 26 (by decide) (by decide)
    (fun y2 h => Option.noConfusion h)

/-- C4 amended: when the content starts with a newline-terminated
shebang or encoding line (and, possibly, a second encoding line), the
inserted header goes right after those lines, which stay verbatim at
the start, with the rest of the content following. -/
theorem C4_insert_after_special (filename l1 r owner : List Char) (curr : Nat)
    (hext : recognizedExt (ending filename) = true)
    (h1 : '\n' ∉ l1)
    (hsp : (isPre "#!".data (l1 ++ ['\n']) ||
      encodingMatch (l1 ++ ['\n'])) = true) :
    ((∀ l2 r2, r = l2 ++ '\n' :: r2 → '\n' ∉ l2 →
        encodingMatch (l2 ++ ['\n']) = false) →
      (insert_missing_copyright filename (l1 ++ '\n' :: r) curr owner).1 =
        some ((l1 ++ ['\n']) ++
          (wrap_copyright filename (copyrightText curr owner) ++ r))) ∧
    (∀ l2 r2, r = l2 ++ '\n' :: r2 → '\n' ∉ l2 →
      encodingMatch (l2 ++ ['\n']) = true →
      (insert_missing_copyright filename (l1 ++ '\n' :: r) curr owner).1 =
        some ((l1 ++ '\n' :: (l2 ++ ['\n'])) ++
          (wrap_copyright filename (copyrightText curr owner) ++ r2))) := by
  have hne := wrap_isEmpty_false (copyrightText curr owner) hext
  constructor
  · intro hno
    have hidx := getIndex_one h1 hsp hno
    simp only [insert_missing_copyright, hne, Bool.false_eq_true, if_false]
    rw [hidx, if_pos (by omega), take_append_nl, drop_append_nl_succ,
      List.append_assoc]
  · intro l2 r2 hr hnl2 henc
    subst hr
    have hidx := getIndex_two r2 h1 hsp hnl2 henc
    simp only [insert_missing_copyright, hne, Bool.false_eq_true, if_false]
    rw [hidx, if_pos (by omega), take_append_nl_add, take_append_nl,
      drop_append_nl_add, drop_append_nl_succ, List.append_assoc]

/-- C4 counterexample: a shebang with no trailing newline (the file
`#!/bin/sh`) is not preserved — the header lands before it, because
`find("\n") + 1` yields index 0. -/
theorem C4_counterexample :
    (insert_missing_copyright "a.py".data "#!/bin/sh".data 2024
      "fake".data).1 =
      some "#\n# Copyright (c) 2024 by fake. All rights reserved.\n#\n\n#!/bin/sh".data ∧
    isPre "#!".data
      "#\n# Copyright (c) 2024 by fake. All rights reserved.\n#\n\n#!/bin/sh".data =
      false := by
  constructor
  · decide
  · decide

/-- C4 witness: a newline-terminated shebang is preserved. -/
theorem C4_witness :
    (insert_missing_copyright "a.py".data ("#!x".data ++ '\n' :: []) 2024
      "fake".data).1 =
      some (("#!x".data ++ ['\n']) ++
        (wrap_copyright "a.py".data (copyrightText 2024 "fake".data) ++ [])) :=
  (C4_insert_after_special "a.py".data "#!x".data [] "fake".data 2024
      (by decide) (by decide) (by decide)).1
    (fun l2 r2 he _ => absurd he.symm (by simp))

/-- C10 amended: the detection pattern accepts the backslash-escaped
form the Markdown wrapper produces, so for content whose only
line-break character is a newline, inserting the header into a
Markdown file and re-scanning detects a copyright. -/
theorem C10_md_roundtrip (filename content owner : List Char) (curr : Nat)
    (hmd : ending filename = "md".data)
    (ht : contentTame content = true)
    (ho : ownerOkB owner = true)
    (h1 : 1000 ≤ curr) (h2 : curr ≤ 9999) :
    ∃ c1, (insert_missing_copyright filename content curr owner).1 = some c1 ∧
      (copSearch owner (content_head c1)).isSome = true := by
  have hext : recognizedExt (ending filename) = true := by
    rw [hmd]
    decide
  obtain ⟨c1, L1, A, e1, e2, B, L2, hins, hhead, hAC, hL1⟩ :=
    insert_structure filename content owner curr hext ht ho h1 h2
  refine ⟨c1, hins, ?_⟩
  have hj : copMatchAt owner
      ((content_head c1).drop ((NLpre L1).length + A.length)) =
      some (val4 (decimal curr), none, B ++ NLpost L2) := by
    rw [hhead, joinNL_decomp, drop_append_len, List.append_assoc,
      List.drop_left, List.append_assoc]
    rw [copMatchAt_complete e1 e2 (B ++ NLpost L2)
      (decimal_four_digits h1 h2) (fun d2 hd2 => Option.noConfusion hd2)]
    rfl
  obtain ⟨w, hw⟩ := copSearch_isSome_of hj
  rw [hw]
  rfl

/-- C10 counterexample: in an `.md` file whose shebang line ends with a
carriage return, the inserted header is not detected on the next scan:
`splitlines` breaks at `\r`, the second line starts with a letter, and
the head stops before the header line. -/
theorem C10_counterexample :
    (insert_missing_copyright "a.md".data "#!x\rb\n".data 2024
      "fake".data).1 =
      some "#!x\rb\n[//]: # (Copyright \\(c\\) 2024 by fake. All rights reserved.)\n".data ∧
    copSearch "fake".data (content_head
      "#!x\rb\n[//]: # (Copyright \\(c\\) 2024 by fake. All rights reserved.)\n".data) =
      none := by
  constructor
  · decide
  · decide

/-- C10 witness: round trip on a plain Markdown file. -/
theorem C10_witness :
    ∃ c1, (insert_missing_copyright "a.md".data "hello".data 2024
        "fake".data).1 = some c1 ∧
      (copSearch "fake".data (content_head c1)).isSome = true :=
  C10_md_roundtrip "a.md".data "hello".data "fake".data 2024 (by decide)
    (by decide) (by decide) (by decide) (by decide)

/-- C3 amended: for a recognized extension, tame content, a
well-behaved owner and detected years with four digits and no leading
zero, a second run of the per-file check (update on, same year and git
state) on the content resulting from the first run exits 0 and writes
nothing. -/
theorem C3_second_run_clean (filename owner content : List Char)
    (authored : Option Nat) (staged : Bool) (curr : Nat)
    (hext : recognizedExt (ending filename) = true)
    (ht : contentTame content = true)
    (ho : ownerOkB owner = true)
    (hy : headerYearsOk owner content = true)
    (hc1 : 1000 ≤ curr) (hc2 : curr ≤ 9999) :
    (check_copyright_content filename owner true authored staged curr
      ((check_copyright_content filename owner true authored staged curr
        content).2.1.getD content)).1 = 0 ∧
    (check_copyright_content filename owner true authored staged curr
      ((check_copyright_content filename owner true authored staged curr
        content).2.1.getD content)).2.1 = none := by
  have hown := ownerOk_chars ho
  have hbreak : ∀ c ∈ owner, isBreakChar c = false := fun c hc => (hown c hc).1
  cases hs : copSearch owner (content_head content) with
  | none =>
    obtain ⟨c1, L1, A, e1, e2, B, L2, hins, hhead, hAC, hL1src⟩ :=
      insert_structure filename content owner curr hext ht ho hc1 hc2
    have hfirst := check_content_missing filename owner content true authored
      staged curr hs
    have hSNall : SN owner (joinNL (headLines (splitLines content))) :=
      copSearch_none_iff.1 hs
    have hSN1 : ∀ l ∈ L1, SN owner l := by
      intro l hl
      rcases hL1src l hl with hC | hmem
      · exact SN_of_no_C hC
      · exact SN_line_of_joinNL hbreak hSNall hmem
    have hjL : copMatchAt owner
        ((A ++ (copFull e1 e2 (decimal curr) none owner ++ B)).drop
          A.length) = some (curr, none, B) := by
      rw [List.drop_left]
      rw [copMatchAt_complete e1 e2 B (decimal_four_digits hc1 hc2)
        (fun d2 hd2 => Option.noConfusion hd2)]
      rw [val4_decimal hc1 hc2]
      rfl
    have hminL : ∀ k, k < A.length → copMatchAt owner
        ((A ++ (copFull e1 e2 (decimal curr) none owner ++ B)).drop k) =
        none := fun k hk => matchAt_none_in_prefix hAC hk
    have hsearch2 := copSearch_localized hbreak hSN1 hjL hminL (NLpost_cases L2)
    rw [← joinNL_decomp, ← hhead] at hsearch2
    have hW : (check_copyright_content filename owner true authored staged
        curr content).2.1 = some c1 := by
      rw [hfirst]
      exact hins
    rw [hW, Option.getD_some]
    rw [check_content_found filename owner c1 true authored staged curr _
      curr none _ hsearch2]
    have hcond : ((should_check authored staged curr filename).1 &&
        decide (porNat ((none : Option Nat).getD 0) curr < curr)) = false := by
      have hp : porNat ((none : Option Nat).getD 0) curr = curr := rfl
      rw [hp]
      simp [Nat.lt_irrefl]
    rw [hcond]
    simp only [Bool.false_eq_true, if_false]
    exact ⟨trivial, trivial⟩
  | some v =>
    obtain ⟨i, y1, oy2, len⟩ := v
    obtain ⟨hy1, hy2⟩ := headerYears_extract hy hs
    have hfirst := check_content_found filename owner content true authored
      staged curr i y1 oy2 len hs
    by_cases hcond : ((should_check authored staged curr filename).1 &&
        decide (porNat (oy2.getD 0) y1 < curr)) = true
    · have hW : (check_copyright_content filename owner true authored staged
          curr content).2.1 = some (subFirst owner content
            (newCopyrightOf (((content_head content).drop i).take len) y1 oy2
              curr)) := by
        rw [hfirst, if_pos hcond]
        rfl
      rw [hW, Option.getD_some]
      obtain ⟨p, vv, len2, hsearch2⟩ :=
        update_structure ht ho hc1 hc2 hs hy1 hy2
      rw [check_content_found filename owner _ true authored staged curr p vv
        (some curr) len2 hsearch2]
      have hcond2 : ((should_check authored staged curr filename).1 &&
          decide (porNat ((some curr).getD 0) vv < curr)) = false := by
        have hp : porNat ((some curr).getD 0) vv = curr := by
          unfold porNat
          rw [if_pos (show ((some curr).getD 0) ≠ 0 by
            simp
            omega)]
          rfl
        rw [hp]
        simp [Nat.lt_irrefl]
      rw [hcond2]
      simp only [Bool.false_eq_true, if_false]
      exact ⟨trivial, trivial⟩
    · have hcondF : ((should_check authored staged curr filename).1 &&
          decide (porNat (oy2.getD 0) y1 < curr)) = false := by
        cases hB : ((should_check authored staged curr filename).1 &&
            decide (porNat (oy2.getD 0) y1 < curr)) with
        | false => rfl
        | true => exact absurd hB hcond
      have hW : (check_copyright_content filename owner true authored staged
          curr content).2.1 = none := by
        rw [hfirst, hcondF]
        rfl
      rw [hW, Option.getD_none]
      rw [hfirst, hcondF]
      simp only [Bool.false_eq_true, if_false]
      exact ⟨trivial, trivial⟩

/-- C3 counterexample: on a file with an unrecognized extension and no
detected copyright header the first run writes nothing and exits 1, so
the second run — on the unchanged file — also exits 1, not 0. -/
theorem C3_counterexample :
    (check_copyright "a.fake".data "fake".data true none false 2024 true true
      "hello".data).2.1 = none ∧
    (check_copyright "a.fake".data "fake".data true none false 2024 true true
      "hello".data).1 = 1 := by
  constructor
  · decide
  · decide

/-- C3 witness: insert on an empty `a.py`, then re-check the result. -/
theorem C3_witness :
    (check_copyright_content "a.py".data "fake".data true none false 2024
      ((check_copyright_content "a.py".data "fake".data true none false 2024
        []).2.1.getD [])).1 = 0 ∧
    (check_copyright_content "a.py".data "fake".data true none false 2024
      ((check_copyright_content "a.py".data "fake".data true none false 2024
        []).2.1.getD [])).2.1 = none :=
  C3_second_run_clean "a.py".data "fake".data [] none false 2024 (by decide)
    (by decide) (by decide) (by decide) (by decide) (by decide)

end Hooks
